import Mathlib

/-!
Verification of the classi-cine learning-to-rank filename pipeline.

This file gives a shallow embedding, in Lean 4, of the core data model and
algorithms of the classi-cine repository (naive-Bayes classifier over n-gram
hashes, byte-pair tokenizer, n-gram window generator with frequency
filtering, score aggregation and normalization, M3U playlist persistence,
and the interactive classification loop), and proves or refutes the frozen
specification claims about them.

Modelling conventions:
* Rust machine integers (`u32`, `u64`, `usize`, `i64`) are modelled as `Nat`
  or `Int`; the counters involved stay far below any overflow boundary, and
  no claim concerns wrap-around, so no explicit `% 2^w` reduction is needed.
* Rust `f64` values are modelled as real numbers (`ℝ`), with `f64::ln`
  modelled by `Real.log`.  An `f64` computation produces a finite result
  exactly when every logarithm it takes receives a strictly positive
  argument (and no intermediate overflows, which is unreachable at these
  magnitudes), which is how finiteness assertions are rendered below.
* Rust `String` values are modelled as `List Char`, written `Str` below.
* Hash maps keyed by n-grams or directories are modelled as functions with
  `0` for absent keys, or as association lists where removal behaviour
  matters; hash sets are modelled as `Finset`.
-/

namespace ClassiCine

/-- An n-gram is represented in the sources (src/ngrams.rs) by a single
64-bit hash value; it is modelled here by a natural number. -/
abbrev Ngram := Nat

/-- State of the multinomial naive-Bayes classifier, translated field by
field from `NaiveBayesClassifier` in src/classifier.rs.  The two count
hash maps are modelled as total functions with zero for absent keys. -/
structure NaiveBayesClassifier where
  positive_counts : Ngram → Nat
  positive_total : Nat
  positive_total_ngrams : Nat
  negative_counts : Ngram → Nat
  negative_total : Nat
  negative_total_ngrams : Nat
  vocabulary : Finset Ngram
  reverse : Bool

namespace NaiveBayesClassifier

/-- `NaiveBayesClassifier::new` from src/classifier.rs. -/
def new (reverse : Bool) : NaiveBayesClassifier :=
  { positive_counts := fun _ => 0
    positive_total := 0
    positive_total_ngrams := 0
    negative_counts := fun _ => 0
    negative_total := 0
    negative_total_ngrams := 0
    vocabulary := ∅
    reverse := reverse }

/-- One iteration of the training loop body of `train_positive`
(src/classifier.rs lines 77-81): bump the count of one observed n-gram,
insert it into the vocabulary, and bump the class n-gram total. -/
def obsPos (c : NaiveBayesClassifier) (g : Ngram) : NaiveBayesClassifier :=
  { c with
    positive_counts := fun x => if x = g then c.positive_counts g + 1 else c.positive_counts x
    vocabulary := insert g c.vocabulary
    positive_total_ngrams := c.positive_total_ngrams + 1 }

/-- One iteration of the training loop body of `train_negative`
(src/classifier.rs lines 86-90). -/
def obsNeg (c : NaiveBayesClassifier) (g : Ngram) : NaiveBayesClassifier :=
  { c with
    negative_counts := fun x => if x = g then c.negative_counts g + 1 else c.negative_counts x
    vocabulary := insert g c.vocabulary
    negative_total_ngrams := c.negative_total_ngrams + 1 }

/-- `NaiveBayesClassifier::train_positive` from src/classifier.rs: bump the
document total, then fold the loop body over the observed n-grams. -/
def train_positive (c : NaiveBayesClassifier) (ngrams : List Ngram) : NaiveBayesClassifier :=
  ngrams.foldl obsPos { c with positive_total := c.positive_total + 1 }

/-- `NaiveBayesClassifier::train_negative` from src/classifier.rs. -/
def train_negative (c : NaiveBayesClassifier) (ngrams : List Ngram) : NaiveBayesClassifier :=
  ngrams.foldl obsNeg { c with negative_total := c.negative_total + 1 }

/-- `NaiveBayesClassifier::log_probability` from src/classifier.rs lines
93-108: zero for an empty vocabulary, otherwise Laplace-smoothed log
probability `ln((1 + count) / (total_ngrams + vocab_size))`. -/
noncomputable def log_probability (c : NaiveBayesClassifier) (g : Ngram) (positive : Bool) : ℝ :=
  if c.vocabulary = ∅ then 0
  else
    let counts := if positive then c.positive_counts else c.negative_counts
    let total_ngrams := if positive then c.positive_total_ngrams else c.negative_total_ngrams
    Real.log ((1 + (counts g : ℝ)) / ((total_ngrams : ℝ) + (c.vocabulary.card : ℝ)))

/-- The per-n-gram log probability formula exactly as the specification
words it (spec §4.4): `ln((1 + counts_c[g]) / (1 + total_ngrams_c + |V|))`.
This definition follows the spec text, to be compared against
`log_probability`, which is translated from the source. -/
noncomputable def spec_log_probability (c : NaiveBayesClassifier) (g : Ngram) (positive : Bool) : ℝ :=
  let counts := if positive then c.positive_counts else c.negative_counts
  let total_ngrams := if positive then c.positive_total_ngrams else c.negative_total_ngrams
  Real.log ((1 + (counts g : ℝ)) / (1 + (total_ngrams : ℝ) + (c.vocabulary.card : ℝ)))

/-- `NaiveBayesClassifier::calculate_score` from src/classifier.rs lines
116-150, acting on the n-gram list of an entry: class log priors plus
accumulated per-n-gram log likelihoods, returned as the difference
`log_positive - log_negative`, negated when the `reverse` flag is set. -/
noncomputable def calculate_score (c : NaiveBayesClassifier) (ngrams : List Ngram) : ℝ :=
  let log_positive :=
    Real.log ((1 + (c.positive_total : ℝ)) / ((2 + c.positive_total + c.negative_total : ℕ) : ℝ))
      + (ngrams.map (fun g => c.log_probability g true)).sum
  let log_negative :=
    Real.log ((1 + (c.negative_total : ℝ)) / ((2 + c.positive_total + c.negative_total : ℕ) : ℝ))
      + (ngrams.map (fun g => c.log_probability g false)).sum
  let score := log_positive - log_negative
  if c.reverse then -score else score

/-- The list of arguments handed to `f64::ln` while `calculate_score`
evaluates: the two prior arguments, and, only when the vocabulary is
nonempty (otherwise `log_probability` returns early without taking a
logarithm), the two smoothed-likelihood arguments per n-gram.  In IEEE
semantics the asserted finiteness of the score is equivalent to every one
of these arguments being strictly positive. -/
noncomputable def score_log_arguments (c : NaiveBayesClassifier) (ngrams : List Ngram) : List ℝ :=
  ((1 + (c.positive_total : ℝ)) / ((2 + c.positive_total + c.negative_total : ℕ) : ℝ)) ::
  ((1 + (c.negative_total : ℝ)) / ((2 + c.positive_total + c.negative_total : ℕ) : ℝ)) ::
  (if c.vocabulary = ∅ then [] else
    ngrams.flatMap (fun g =>
      [(1 + (c.positive_counts g : ℝ)) / ((c.positive_total_ngrams : ℝ) + (c.vocabulary.card : ℝ)),
       (1 + (c.negative_counts g : ℝ)) / ((c.negative_total_ngrams : ℝ) + (c.vocabulary.card : ℝ))]))

end NaiveBayesClassifier

/-- A batch of labelled training observations: a flag (`true` = positive)
together with the n-gram list of one labelled path.  Replaying a batch
through the two training entry points models the training loop of
`Build::train_naive_bayes_classifier` and the incremental training done by
the interactive loop. -/
def trainBatch (c : NaiveBayesClassifier) (batch : List (Bool × List Ngram)) :
    NaiveBayesClassifier :=
  batch.foldl (fun c e => if e.1 then c.train_positive e.2 else c.train_negative e.2) c

/-- Specification-level count: total occurrences of n-gram `g` across the
observations of class `b` in a batch. -/
def classCount (batch : List (Bool × List Ngram)) (b : Bool) (g : Ngram) : Nat :=
  (batch.map (fun e => if e.1 = b then e.2.count g else 0)).sum

/-- Specification-level total: summed length of the observations of class
`b` in a batch. -/
def classTotalNgrams (batch : List (Bool × List Ngram)) (b : Bool) : Nat :=
  (batch.map (fun e => if e.1 = b then e.2.length else 0)).sum

/-- Specification-level document total of class `b` in a batch. -/
def classTotal (batch : List (Bool × List Ngram)) (b : Bool) : Nat :=
  (batch.map (fun e => if e.1 = b then 1 else 0)).sum

/-- Specification-level vocabulary: all n-grams observed in either class. -/
def vocabOf (batch : List (Bool × List Ngram)) : Finset Ngram :=
  (batch.map (fun e => e.2.toFinset)).foldr (· ∪ ·) ∅

namespace NaiveBayesClassifier

theorem train_positive_positive_counts (c : NaiveBayesClassifier) (l : List Ngram) (g : Ngram) :
    (c.train_positive l).positive_counts g = c.positive_counts g + l.count g := by
  suffices h : ∀ (c' : NaiveBayesClassifier),
      (l.foldl obsPos c').positive_counts g = c'.positive_counts g + l.count g by
    exact h _
  induction l with
  | nil => intro c'; simp
  | cons a t ih =>
    intro c'
    simp only [List.foldl_cons, ih, List.count_cons, obsPos]
    by_cases hg : g = a
    · subst hg; simp; omega
    · simp [hg, Ne.symm hg]

theorem train_positive_negative_counts (c : NaiveBayesClassifier) (l : List Ngram) :
    (c.train_positive l).negative_counts = c.negative_counts := by
  suffices h : ∀ (c' : NaiveBayesClassifier),
      (l.foldl obsPos c').negative_counts = c'.negative_counts by exact h _
  induction l with
  | nil => intro c'; simp
  | cons a t ih => intro c'; simp [List.foldl_cons, ih, obsPos]

theorem train_positive_totals (c : NaiveBayesClassifier) (l : List Ngram) :
    (c.train_positive l).positive_total = c.positive_total + 1 ∧
    (c.train_positive l).negative_total = c.negative_total ∧
    (c.train_positive l).positive_total_ngrams = c.positive_total_ngrams + l.length ∧
    (c.train_positive l).negative_total_ngrams = c.negative_total_ngrams ∧
    (c.train_positive l).reverse = c.reverse := by
  suffices h : ∀ (c' : NaiveBayesClassifier),
      (l.foldl obsPos c').positive_total = c'.positive_total ∧
      (l.foldl obsPos c').negative_total = c'.negative_total ∧
      (l.foldl obsPos c').positive_total_ngrams = c'.positive_total_ngrams + l.length ∧
      (l.foldl obsPos c').negative_total_ngrams = c'.negative_total_ngrams ∧
      (l.foldl obsPos c').reverse = c'.reverse by
    obtain ⟨h1, h2, h3, h4, h5⟩ := h { c with positive_total := c.positive_total + 1 }
    exact ⟨h1, h2, h3, h4, h5⟩
  induction l with
  | nil => intro c'; simp
  | cons a t ih =>
    intro c'
    obtain ⟨h1, h2, h3, h4, h5⟩ := ih (obsPos c' a)
    refine ⟨by simpa [obsPos] using h1, by simpa [obsPos] using h2, ?_,
      by simpa [obsPos] using h4, by simpa [obsPos] using h5⟩
    rw [List.foldl_cons, h3]
    simp only [obsPos, List.length_cons]
    omega

theorem train_positive_vocabulary (c : NaiveBayesClassifier) (l : List Ngram) :
    (c.train_positive l).vocabulary = c.vocabulary ∪ l.toFinset := by
  suffices h : ∀ (c' : NaiveBayesClassifier),
      (l.foldl obsPos c').vocabulary = c'.vocabulary ∪ l.toFinset by exact h _
  induction l with
  | nil => intro c'; simp
  | cons a t ih =>
    intro c'
    simp only [List.foldl_cons, ih, obsPos, List.toFinset_cons]
    rw [Finset.insert_union, Finset.union_insert]

theorem train_negative_negative_counts (c : NaiveBayesClassifier) (l : List Ngram) (g : Ngram) :
    (c.train_negative l).negative_counts g = c.negative_counts g + l.count g := by
  suffices h : ∀ (c' : NaiveBayesClassifier),
      (l.foldl obsNeg c').negative_counts g = c'.negative_counts g + l.count g by
    exact h _
  induction l with
  | nil => intro c'; simp
  | cons a t ih =>
    intro c'
    simp only [List.foldl_cons, ih, List.count_cons, obsNeg]
    by_cases hg : g = a
    · subst hg; simp; omega
    · simp [hg, Ne.symm hg]

theorem train_negative_positive_counts (c : NaiveBayesClassifier) (l : List Ngram) :
    (c.train_negative l).positive_counts = c.positive_counts := by
  suffices h : ∀ (c' : NaiveBayesClassifier),
      (l.foldl obsNeg c').positive_counts = c'.positive_counts by exact h _
  induction l with
  | nil => intro c'; simp
  | cons a t ih => intro c'; simp [List.foldl_cons, ih, obsNeg]

theorem train_negative_totals (c : NaiveBayesClassifier) (l : List Ngram) :
    (c.train_negative l).negative_total = c.negative_total + 1 ∧
    (c.train_negative l).positive_total = c.positive_total ∧
    (c.train_negative l).negative_total_ngrams = c.negative_total_ngrams + l.length ∧
    (c.train_negative l).positive_total_ngrams = c.positive_total_ngrams ∧
    (c.train_negative l).reverse = c.reverse := by
  suffices h : ∀ (c' : NaiveBayesClassifier),
      (l.foldl obsNeg c').negative_total = c'.negative_total ∧
      (l.foldl obsNeg c').positive_total = c'.positive_total ∧
      (l.foldl obsNeg c').negative_total_ngrams = c'.negative_total_ngrams + l.length ∧
      (l.foldl obsNeg c').positive_total_ngrams = c'.positive_total_ngrams ∧
      (l.foldl obsNeg c').reverse = c'.reverse by
    obtain ⟨h1, h2, h3, h4, h5⟩ := h { c with negative_total := c.negative_total + 1 }
    exact ⟨h1, h2, h3, h4, h5⟩
  induction l with
  | nil => intro c'; simp
  | cons a t ih =>
    intro c'
    obtain ⟨h1, h2, h3, h4, h5⟩ := ih (obsNeg c' a)
    refine ⟨by simpa [obsNeg] using h1, by simpa [obsNeg] using h2, ?_,
      by simpa [obsNeg] using h4, by simpa [obsNeg] using h5⟩
    rw [List.foldl_cons, h3]
    simp only [obsNeg, List.length_cons]
    omega

theorem train_negative_vocabulary (c : NaiveBayesClassifier) (l : List Ngram) :
    (c.train_negative l).vocabulary = c.vocabulary ∪ l.toFinset := by
  suffices h : ∀ (c' : NaiveBayesClassifier),
      (l.foldl obsNeg c').vocabulary = c'.vocabulary ∪ l.toFinset by exact h _
  induction l with
  | nil => intro c'; simp
  | cons a t ih =>
    intro c'
    simp only [List.foldl_cons, ih, obsNeg, List.toFinset_cons]
    rw [Finset.insert_union, Finset.union_insert]

end NaiveBayesClassifier

theorem trainBatch_cons (c : NaiveBayesClassifier) (e : Bool × List Ngram)
    (rest : List (Bool × List Ngram)) :
    trainBatch c (e :: rest) =
      trainBatch (if e.1 then c.train_positive e.2 else c.train_negative e.2) rest := rfl

open NaiveBayesClassifier in
theorem trainBatch_positive_counts (c : NaiveBayesClassifier) (batch : List (Bool × List Ngram))
    (g : Ngram) :
    (trainBatch c batch).positive_counts g = c.positive_counts g + classCount batch true g := by
  induction batch generalizing c with
  | nil => simp [trainBatch, classCount]
  | cons e rest ih =>
    obtain ⟨b, l⟩ := e
    rw [trainBatch_cons]
    cases b with
    | true =>
      rw [if_pos rfl, ih, train_positive_positive_counts]
      simp [classCount]
      omega
    | false =>
      rw [if_neg (by simp), ih]
      rw [show (c.train_negative l).positive_counts = c.positive_counts from
        train_negative_positive_counts c l]
      simp [classCount]

open NaiveBayesClassifier in
theorem trainBatch_negative_counts (c : NaiveBayesClassifier) (batch : List (Bool × List Ngram))
    (g : Ngram) :
    (trainBatch c batch).negative_counts g = c.negative_counts g + classCount batch false g := by
  induction batch generalizing c with
  | nil => simp [trainBatch, classCount]
  | cons e rest ih =>
    obtain ⟨b, l⟩ := e
    rw [trainBatch_cons]
    cases b with
    | true =>
      rw [if_pos rfl, ih]
      rw [show (c.train_positive l).negative_counts = c.negative_counts from
        train_positive_negative_counts c l]
      simp [classCount]
    | false =>
      rw [if_neg (by simp), ih, train_negative_negative_counts]
      simp [classCount]
      omega

open NaiveBayesClassifier in
theorem trainBatch_totals (c : NaiveBayesClassifier) (batch : List (Bool × List Ngram)) :
    (trainBatch c batch).positive_total = c.positive_total + classTotal batch true ∧
    (trainBatch c batch).negative_total = c.negative_total + classTotal batch false ∧
    (trainBatch c batch).positive_total_ngrams
      = c.positive_total_ngrams + classTotalNgrams batch true ∧
    (trainBatch c batch).negative_total_ngrams
      = c.negative_total_ngrams + classTotalNgrams batch false := by
  induction batch generalizing c with
  | nil => simp [trainBatch, classTotal, classTotalNgrams]
  | cons e rest ih =>
    obtain ⟨b, l⟩ := e
    rw [trainBatch_cons]
    cases b with
    | true =>
      obtain ⟨t1, t2, t3, t4, -⟩ := train_positive_totals c l
      obtain ⟨i1, i2, i3, i4⟩ := ih (c.train_positive l)
      rw [if_pos rfl] at *
      refine ⟨?_, ?_, ?_, ?_⟩ <;>
        simp [i1, i2, i3, i4, t1, t2, t3, t4, classTotal, classTotalNgrams] <;> omega
    | false =>
      obtain ⟨t1, t2, t3, t4, -⟩ := train_negative_totals c l
      obtain ⟨i1, i2, i3, i4⟩ := ih (c.train_negative l)
      rw [if_neg (by simp)] at *
      refine ⟨?_, ?_, ?_, ?_⟩ <;>
        simp [i1, i2, i3, i4, t1, t2, t3, t4, classTotal, classTotalNgrams] <;> omega

open NaiveBayesClassifier in
theorem trainBatch_vocabulary (c : NaiveBayesClassifier) (batch : List (Bool × List Ngram)) :
    (trainBatch c batch).vocabulary = c.vocabulary ∪ vocabOf batch := by
  induction batch generalizing c with
  | nil => simp [trainBatch, vocabOf]
  | cons e rest ih =>
    obtain ⟨b, l⟩ := e
    rw [trainBatch_cons]
    cases b with
    | true =>
      rw [if_pos rfl, ih, train_positive_vocabulary]
      simp only [vocabOf, List.map_cons, List.foldr_cons]
      rw [Finset.union_assoc]
    | false =>
      rw [if_neg (by simp), ih, train_negative_vocabulary]
      simp only [vocabOf, List.map_cons, List.foldr_cons]
      rw [Finset.union_assoc]

/-- Claim C1 (counterexample): at the concrete state obtained by training a
fresh classifier on one positive example with the single n-gram `0`, the
log probability computed by the code, `ln((1+1)/(1+1)) = 0`, differs from
the value `ln((1+1)/(1+1+1)) = ln(2/3)` demanded by the specification's
formula `ln((1 + counts_c[g]) / (1 + total_ngrams_c + |V|))`. -/
theorem claim_C1_counterexample :
    ((NaiveBayesClassifier.new false).train_positive [0]).log_probability 0 true ≠
      NaiveBayesClassifier.spec_log_probability
        ((NaiveBayesClassifier.new false).train_positive [0]) 0 true := by
  set c := (NaiveBayesClassifier.new false).train_positive [0] with hc
  have hv : c.vocabulary = {0} := by
    rw [hc, NaiveBayesClassifier.train_positive_vocabulary]
    simp [NaiveBayesClassifier.new]
  have hcnt : c.positive_counts 0 = 1 := by
    rw [hc, NaiveBayesClassifier.train_positive_positive_counts]
    simp [NaiveBayesClassifier.new]
  have htn : c.positive_total_ngrams = 1 := by
    obtain ⟨-, -, h3, -, -⟩ := NaiveBayesClassifier.train_positive_totals
      (NaiveBayesClassifier.new false) [0]
    rw [hc, h3]
    simp [NaiveBayesClassifier.new]
  have hne : c.vocabulary ≠ ∅ := by rw [hv]; simp
  rw [NaiveBayesClassifier.log_probability, NaiveBayesClassifier.spec_log_probability, if_neg hne]
  simp only [if_true, hcnt, htn, hv]
  norm_num
  have : Real.log ((2 : ℝ) / 3) < 0 := Real.log_neg (by norm_num) (by norm_num)
  intro h
  rw [← h] at this
  norm_num at this

/-- Claim C1 (amended): for every classifier obtained by training a fresh
classifier on any batch of labelled n-gram lists, as long as the observed
vocabulary is nonempty, the per-n-gram log probability used during scoring
equals `ln((1 + counts_c[g]) / (total_ngrams_c + |V|))` — with counts,
class n-gram totals and vocabulary those accumulated by training — i.e.
the specification's extra `1 +` in the denominator is absent from the
code's formula. -/
theorem claim_C1_amended (r : Bool) (batch : List (Bool × List Ngram)) (g : Ngram)
    (positive : Bool) (h : vocabOf batch ≠ ∅) :
    (trainBatch (NaiveBayesClassifier.new r) batch).log_probability g positive =
      Real.log ((1 + (classCount batch positive g : ℝ)) /
        ((classTotalNgrams batch positive : ℝ) + ((vocabOf batch).card : ℝ))) := by
  set c := trainBatch (NaiveBayesClassifier.new r) batch with hc
  have hv : c.vocabulary = vocabOf batch := by
    rw [hc, trainBatch_vocabulary]
    simp [NaiveBayesClassifier.new]
  obtain ⟨t1, t2, t3, t4⟩ := trainBatch_totals (NaiveBayesClassifier.new r) batch
  rw [NaiveBayesClassifier.log_probability, if_neg (hv ▸ h)]
  cases positive with
  | true =>
    have hcnt : c.positive_counts g = classCount batch true g := by
      rw [hc, trainBatch_positive_counts]; simp [NaiveBayesClassifier.new]
    have htn : c.positive_total_ngrams = classTotalNgrams batch true := by
      rw [hc, t3]; simp [NaiveBayesClassifier.new]
    simp only [if_true, hcnt, htn, hv]
  | false =>
    have hcnt : c.negative_counts g = classCount batch false g := by
      rw [hc, trainBatch_negative_counts]; simp [NaiveBayesClassifier.new]
    have htn : c.negative_total_ngrams = classTotalNgrams batch false := by
      rw [hc, t4]; simp [NaiveBayesClassifier.new]
    simp only [Bool.false_eq_true, if_false, hcnt, htn, hv]

/-- Witness for claim C1's amended theorem at the concrete batch of one
positive example carrying n-gram `0`. -/
theorem claim_C1_witness :
    vocabOf [(true, [0])] ≠ ∅ ∧
    (trainBatch (NaiveBayesClassifier.new false) [(true, [0])]).log_probability 0 true =
      Real.log ((1 + (classCount [(true, [0])] true 0 : ℝ)) /
        ((classTotalNgrams [(true, [0])] true : ℝ) + ((vocabOf [(true, [0])]).card : ℝ))) :=
  ⟨by decide, claim_C1_amended false [(true, [0])] 0 true (by decide)⟩

/-- Claim C10: a never-trained classifier (fresh from `new`, with either
reverse flag) scores every entry as exactly 0, whatever n-grams the entry
carries: the two equal class log priors cancel and the empty vocabulary
makes every per-n-gram log probability 0. -/
theorem claim_C10 (r : Bool) (ngrams : List Ngram) :
    (NaiveBayesClassifier.new r).calculate_score ngrams = 0 := by
  have hlp : ∀ b : Bool, ∀ g ∈ ngrams, (NaiveBayesClassifier.new r).log_probability g b = 0 := by
    intro b g _
    simp [NaiveBayesClassifier.log_probability, NaiveBayesClassifier.new]
  have hsum : ∀ b : Bool, ((ngrams.map fun g =>
      (NaiveBayesClassifier.new r).log_probability g b)).sum = 0 := by
    intro b
    apply List.sum_eq_zero
    intro x hx
    obtain ⟨g, hg, rfl⟩ := List.mem_map.mp hx
    exact hlp b g hg
  rw [NaiveBayesClassifier.calculate_score]
  simp only [hsum true, hsum false, add_zero]
  rw [show (NaiveBayesClassifier.new r).positive_total = 0 from rfl,
    show (NaiveBayesClassifier.new r).negative_total = 0 from rfl,
    show (NaiveBayesClassifier.new r).reverse = r from rfl]
  simp

/-- Claim C9: whenever at least one label has been trained, every argument
handed to a logarithm during `calculate_score` is strictly positive, so in
IEEE semantics every logarithm is finite and the score — a finite sum and
difference of those values — is finite; the internal
`assert!(score.is_finite())` cannot fail. -/
theorem claim_C9 (c : NaiveBayesClassifier) (ngrams : List Ngram)
    (h : 1 ≤ c.positive_total + c.negative_total) :
    ∀ x ∈ c.score_log_arguments ngrams, 0 < x := by
  intro x hx
  have hden : (0 : ℝ) < ((2 + c.positive_total + c.negative_total : ℕ) : ℝ) := by
    have : (0 : ℕ) < 2 + c.positive_total + c.negative_total := by omega
    exact_mod_cast this
  rw [NaiveBayesClassifier.score_log_arguments] at hx
  rcases List.mem_cons.mp hx with rfl | hx
  · apply div_pos _ hden
    have : (0 : ℝ) ≤ (c.positive_total : ℝ) := Nat.cast_nonneg _
    linarith
  rcases List.mem_cons.mp hx with rfl | hx
  · apply div_pos _ hden
    have : (0 : ℝ) ≤ (c.negative_total : ℝ) := Nat.cast_nonneg _
    linarith
  by_cases hv : c.vocabulary = ∅
  · rw [if_pos hv] at hx
    simp at hx
  · rw [if_neg hv] at hx
    have hcard : (1 : ℝ) ≤ (c.vocabulary.card : ℝ) := by
      have : 1 ≤ c.vocabulary.card := Finset.card_pos.mpr (Finset.nonempty_of_ne_empty hv)
      exact_mod_cast this
    obtain ⟨g, -, hg⟩ := List.mem_flatMap.mp hx
    have hposden : (0 : ℝ) < (c.positive_total_ngrams : ℝ) + (c.vocabulary.card : ℝ) := by
      have : (0 : ℝ) ≤ (c.positive_total_ngrams : ℝ) := Nat.cast_nonneg _
      linarith
    have hnegden : (0 : ℝ) < (c.negative_total_ngrams : ℝ) + (c.vocabulary.card : ℝ) := by
      have : (0 : ℝ) ≤ (c.negative_total_ngrams : ℝ) := Nat.cast_nonneg _
      linarith
    rcases List.mem_cons.mp hg with rfl | hg
    · apply div_pos _ hposden
      have : (0 : ℝ) ≤ (c.positive_counts g : ℝ) := Nat.cast_nonneg _
      linarith
    rcases List.mem_cons.mp hg with rfl | hg
    · apply div_pos _ hnegden
      have : (0 : ℝ) ≤ (c.negative_counts g : ℝ) := Nat.cast_nonneg _
      linarith
    · simp at hg

/-- Witness for claim C9 at a concrete classifier trained on one positive
label carrying n-gram `5`. -/
theorem claim_C9_witness :
    1 ≤ (trainBatch (NaiveBayesClassifier.new false) [(true, [5])]).positive_total +
        (trainBatch (NaiveBayesClassifier.new false) [(true, [5])]).negative_total ∧
    ∀ x ∈ (trainBatch (NaiveBayesClassifier.new false) [(true, [5])]).score_log_arguments [5],
      0 < x :=
  ⟨by decide, claim_C9 _ _ (by decide)⟩

/-! ### Playlist model (src/playlist.rs, src/path.rs)

Rust strings are modelled as `List Char` (`Str`); the playlist file is the
list of its lines; an absolute filesystem path is its list of components
(the leading root separator left implicit, as every path handled here is
absolute — `AbsPath::from_abs_path` asserts this in the source). -/

/-- A Rust `String` / `str`, modelled as its character list. -/
abbrev Str := List Char

/-- Rust `str::trim`: remove whitespace from both ends. -/
def trimStr (s : Str) : Str :=
  ((s.dropWhile Char.isWhitespace).reverse.dropWhile Char.isWhitespace).reverse

/-- The literal `#EXTM3U` header (src/playlist.rs `M3U_HEADER`). -/
def headerLine : Str := ['#', 'E', 'X', 'T', 'M', '3', 'U']

/-- The literal `#NEGATIVE:` marker (src/playlist.rs `NEGATIVE_PREFIX`). -/
def negMarker : Str := ['#', 'N', 'E', 'G', 'A', 'T', 'I', 'V', 'E', ':']

/-- `normalize_path` from src/path.rs, restricted to absolute paths (the
only paths the playlist code feeds it): `.` components are dropped, `..`
pops the last normal component when one exists and is otherwise dropped at
the root, everything else is pushed. -/
def normStep (stack : List Str) (c : Str) : List Str :=
  if c = ['.'] then stack
  else if c = ['.', '.'] then stack.dropLast
  else stack ++ [c]

/-- Component-level normalization of an absolute path (src/path.rs
`normalize_path`). -/
def normalizePath (comps : List Str) : List Str := comps.foldl normStep []

/-- Modelled from the spec: the `pathdiff::diff_paths` crate call used by
`AbsPath::to_string` is external to the sources; spec §6.1 says written
paths are relative to the playlist directory, so the difference of two
absolute component lists is: strip the common prefix, one `..` per
remaining base component, then the remaining target components. -/
def diffPaths : List Str → List Str → List Str
  | t :: ts, b :: bs =>
    if t = b then diffPaths ts bs
    else List.replicate (b :: bs).length ['.', '.'] ++ (t :: ts)
  | ts, bs => List.replicate bs.length ['.', '.'] ++ ts

/-- Join relative-path components with forward slashes (the written form of
a playlist line, `AbsPath::to_string` with a `RelativeTo` context). -/
def joinSlash : List Str → Str
  | [] => []
  | [c] => c
  | c :: cs => c ++ '/' :: joinSlash cs

/-- Split a line on `/`, keeping empty fragments (the inverse step of
`joinSlash`; `PathBuf::from` + `components()` in the source). -/
def splitSlashRaw : Str → List Str
  | [] => [[]]
  | c :: rest =>
    match splitSlashRaw rest with
    | [] => [[]]
    | h :: t => if c = '/' then [] :: h :: t else (c :: h) :: t

/-- Path components of a line: split on `/` and drop empty fragments,
matching `PathBuf::components()` on a relative path. -/
def lineComps (s : Str) : List Str := (splitSlashRaw s).filter (· ≠ [])

/-- Rust `str::starts_with` for string patterns. -/
def startsWithStr (pre s : Str) : Bool := s.take pre.length = pre

/-- One user verdict as persisted (src/playlist.rs `PlaylistEntry`), the
payload being the normalized absolute component path. -/
inductive PlaylistEntry where
  | positive (path : List Str)
  | negative (path : List Str)
deriving DecidableEq

/-- `PlaylistEntry::path`. -/
def PlaylistEntry.path : PlaylistEntry → List Str
  | .positive p => p
  | .negative p => p

/-- The playlist error cases of `M3uPlaylist::open` (src/playlist.rs lines
86-94, surfaced as `Error::PlaylistError`). -/
inductive PlaylistError where
  | emptyFile
  | missingHeader
deriving DecidableEq

/-- In-memory playlist state (src/playlist.rs `M3uPlaylist`), paired with
the current contents of its backing file so that append-then-reopen can be
stated. -/
structure M3uPlaylist where
  root : List Str
  entries : List PlaylistEntry
  file : List Str
deriving DecidableEq

/-- Parse one non-header playlist line (src/playlist.rs lines 97-116):
`#NEGATIVE:`-prefixed lines are negative entries, other `#` lines are
comments, anything else is a positive entry; the relative path is trimmed,
resolved against the root and normalized. -/
def parseLine (root : List Str) (line : Str) : Option PlaylistEntry :=
  if startsWithStr negMarker line then
    some (.negative (normalizePath (root ++ lineComps (trimStr (line.drop negMarker.length)))))
  else if line.head? = some '#' then none
  else some (.positive (normalizePath (root ++ lineComps (trimStr line))))

/-- Parse all lines after the header. -/
def parseLines (root : List Str) (lines : List Str) : List PlaylistEntry :=
  lines.filterMap (parseLine root)

/-- `M3uPlaylist::open` (src/playlist.rs lines 59-120).  The filesystem is
abstracted to `Option (List Str)`: `none` when the file does not exist (the
code then creates it with the `#EXTM3U` header), otherwise the file's
lines.  The header of an existing file is verified up to trimming. -/
def M3uPlaylist.open (root : List Str) (disk : Option (List Str)) :
    Except PlaylistError M3uPlaylist :=
  match disk with
  | none => .ok ⟨root, [], [headerLine]⟩
  | some [] => .error .emptyFile
  | some (first :: rest) =>
    if trimStr first = headerLine then .ok ⟨root, parseLines root rest, first :: rest⟩
    else .error .missingHeader

/-- `M3uPlaylist::add_positive` (src/playlist.rs lines 124-132): normalize
the absolute path, record the entry in memory, and append the
slash-joined relative path as one line to the file. -/
def M3uPlaylist.add_positive (pl : M3uPlaylist) (path : List Str) : M3uPlaylist :=
  let ap := normalizePath path
  { pl with
    entries := pl.entries ++ [.positive ap]
    file := pl.file ++ [joinSlash (diffPaths ap pl.root)] }

/-- `M3uPlaylist::add_negative` (src/playlist.rs lines 134-142). -/
def M3uPlaylist.add_negative (pl : M3uPlaylist) (path : List Str) : M3uPlaylist :=
  let ap := normalizePath path
  { pl with
    entries := pl.entries ++ [.negative ap]
    file := pl.file ++ [negMarker ++ joinSlash (diffPaths ap pl.root)] }

/-- Apply a sequence of verdicts (`true` = `add_positive`). -/
def applyVerdicts (pl : M3uPlaylist) (vs : List (Bool × List Str)) : M3uPlaylist :=
  vs.foldl (fun pl v => if v.1 then pl.add_positive v.2 else pl.add_negative v.2) pl

/-- A component list mentions neither `.` nor `..`. -/
def dotFree (comps : List Str) : Prop := ['.'] ∉ comps ∧ ['.', '.'] ∉ comps

instance (comps : List Str) : Decidable (dotFree comps) := by
  unfold dotFree; infer_instance

/-- Conditions under which one appended verdict survives the write-parse
round trip: the relative path is nonempty with nonempty slash-free
components, its written line does not begin with `#` and is unchanged by
trimming.  (A path violating these — e.g. a filename starting with `#` —
is the counterexample to the unconditional claim.) -/
def validVerdict (root : List Str) (p : List Str) : Prop :=
  let rel := diffPaths (normalizePath p) root
  rel ≠ [] ∧ (∀ c ∈ rel, c ≠ [] ∧ '/' ∉ c) ∧
  (joinSlash rel).head? ≠ some '#' ∧ trimStr (joinSlash rel) = joinSlash rel

instance (root p : List Str) : Decidable (validVerdict root p) := by
  unfold validVerdict; infer_instance

theorem foldl_normStep_of_dotFree (l : List Str) (h : dotFree l) :
    ∀ acc : List Str, l.foldl normStep acc = acc ++ l := by
  induction l with
  | nil => intro acc; simp
  | cons c t ih =>
    intro acc
    obtain ⟨h1, h2⟩ := h
    have hc1 : c ≠ ['.'] := fun hc => h1 (hc ▸ List.mem_cons_self c t)
    have hc2 : c ≠ ['.', '.'] := fun hc => h2 (hc ▸ List.mem_cons_self c t)
    have ht : dotFree t :=
      ⟨fun hm => h1 (List.mem_cons_of_mem c hm), fun hm => h2 (List.mem_cons_of_mem c hm)⟩
    rw [List.foldl_cons, show normStep acc c = acc ++ [c] by
      rw [normStep, if_neg hc1, if_neg hc2], ih ht]
    simp

theorem popAll_normStep (r : List Str) :
    ∀ pre : List Str, (List.replicate r.length ['.', '.']).foldl normStep (pre ++ r) = pre := by
  induction r using List.reverseRecOn with
  | nil => intro pre; simp
  | append_singleton r' x ih =>
    intro pre
    rw [List.length_append, List.length_singleton, List.replicate_succ, List.foldl_cons]
    have hstep : normStep (pre ++ (r' ++ [x])) ['.', '.'] = pre ++ r' := by
      rw [normStep, if_neg (by decide), if_pos rfl, ← List.append_assoc, List.dropLast_concat]
    rw [hstep, ih]

theorem foldl_normStep_diffPaths (ap : List Str) :
    ∀ (root pre : List Str), dotFree ap → dotFree root →
      (diffPaths ap root).foldl normStep (pre ++ root) = pre ++ ap := by
  induction ap with
  | nil =>
    intro root pre _ _
    rw [show diffPaths [] root = List.replicate root.length ['.', '.'] ++ [] from rfl]
    simp only [List.append_nil]
    rw [popAll_normStep root pre]
  | cons t ts ih =>
    intro root pre hap hroot
    have hts : dotFree ts :=
      ⟨fun hm => hap.1 (List.mem_cons_of_mem t hm), fun hm => hap.2 (List.mem_cons_of_mem t hm)⟩
    cases root with
    | nil =>
      rw [show diffPaths (t :: ts) [] = List.replicate 0 ['.', '.'] ++ t :: ts from rfl]
      simp only [List.replicate_zero, List.nil_append, List.append_nil]
      exact foldl_normStep_of_dotFree (t :: ts) hap pre
    | cons b bs =>
      have hbs : dotFree bs :=
        ⟨fun hm => hroot.1 (List.mem_cons_of_mem b hm),
         fun hm => hroot.2 (List.mem_cons_of_mem b hm)⟩
      by_cases htb : t = b
      · rw [show diffPaths (t :: ts) (b :: bs) = diffPaths ts bs by
          rw [diffPaths, if_pos htb]]
        have := ih bs (pre ++ [b]) hts hbs
        rw [List.append_assoc] at this
        simp only [List.singleton_append] at this
        rw [this]
        subst htb
        simp
      · rw [show diffPaths (t :: ts) (b :: bs)
            = List.replicate (b :: bs).length ['.', '.'] ++ t :: ts by
          rw [diffPaths, if_neg htb]]
        rw [List.foldl_append, popAll_normStep (b :: bs) pre]
        exact foldl_normStep_of_dotFree (t :: ts) hap pre

theorem normalizePath_dotFree (comps : List Str) : dotFree (normalizePath comps) := by
  suffices h : ∀ acc : List Str, dotFree acc → dotFree (comps.foldl normStep acc) from
    h [] ⟨by simp, by simp⟩
  induction comps with
  | nil => intro acc hacc; exact hacc
  | cons c t ih =>
    intro acc hacc
    rw [List.foldl_cons]
    apply ih
    rw [normStep]
    by_cases hc1 : c = ['.']
    · rw [if_pos hc1]; exact hacc
    · rw [if_neg hc1]
      by_cases hc2 : c = ['.', '.']
      · rw [if_pos hc2]
        exact ⟨fun hm => hacc.1 (List.dropLast_sublist acc |>.mem hm),
               fun hm => hacc.2 (List.dropLast_sublist acc |>.mem hm)⟩
      · rw [if_neg hc2]
        constructor
        · intro hm
          rcases List.mem_append.mp hm with hm | hm
          · exact hacc.1 hm
          · simp at hm; exact hc1 hm.symm
        · intro hm
          rcases List.mem_append.mp hm with hm | hm
          · exact hacc.2 hm
          · simp at hm; exact hc2 hm.symm

theorem normalizePath_join_diffPaths (ap root : List Str) (hap : dotFree ap)
    (hroot : dotFree root) :
    normalizePath (root ++ diffPaths ap root) = ap := by
  rw [normalizePath, List.foldl_append, foldl_normStep_of_dotFree root hroot []]
  simpa using foldl_normStep_diffPaths ap root [] hap hroot

theorem splitSlashRaw_ne_nil (s : Str) : splitSlashRaw s ≠ [] := by
  cases s with
  | nil => simp [splitSlashRaw]
  | cons c rest =>
    rw [splitSlashRaw]
    cases h : splitSlashRaw rest with
    | nil => simp
    | cons a t =>
      by_cases hc : c = '/'
      · simp [hc]
      · simp [hc]

theorem splitSlashRaw_append (c : Str) (hc : '/' ∉ c) :
    ∀ (s : Str) (h t : _), splitSlashRaw s = h :: t → splitSlashRaw (c ++ s) = (c ++ h) :: t := by
  induction c with
  | nil => intro s h t hs; simpa using hs
  | cons a c' ih =>
    intro s h t hs
    have ha : a ≠ '/' := fun h => hc (h ▸ List.mem_cons_self a c')
    have hc' : '/' ∉ c' := fun hm => hc (List.mem_cons_of_mem a hm)
    rw [List.cons_append, splitSlashRaw, ih hc' s h t hs]
    simp [ha]

theorem splitSlashRaw_join (c : Str) (cs : List Str) (hc : '/' ∉ c)
    (hcs : ∀ x ∈ cs, '/' ∉ x) :
    splitSlashRaw (joinSlash (c :: cs)) = c :: cs := by
  induction cs generalizing c with
  | nil =>
    have : splitSlashRaw (c ++ []) = (c ++ []) :: [] :=
      splitSlashRaw_append c hc [] [] [] rfl
    simpa [joinSlash] using this
  | cons c2 cs' ih =>
    have hj : joinSlash (c :: c2 :: cs') = c ++ '/' :: joinSlash (c2 :: cs') := rfl
    have hrec : splitSlashRaw (joinSlash (c2 :: cs')) = c2 :: cs' :=
      ih c2 (hcs c2 (List.mem_cons_self c2 cs')) (fun x hx => hcs x (List.mem_cons_of_mem c2 hx))
    have hslash : splitSlashRaw ('/' :: joinSlash (c2 :: cs')) = [] :: c2 :: cs' := by
      rw [splitSlashRaw, hrec]
      simp
    rw [hj, splitSlashRaw_append c hc _ [] (c2 :: cs') hslash]
    simp

theorem lineComps_join (rel : List Str) (hne : rel ≠ [])
    (hcomp : ∀ c ∈ rel, c ≠ [] ∧ '/' ∉ c) : lineComps (joinSlash rel) = rel := by
  obtain ⟨c, cs, rfl⟩ := List.exists_cons_of_ne_nil hne
  rw [lineComps, splitSlashRaw_join c cs (hcomp c (List.mem_cons_self c cs)).2
    (fun x hx => (hcomp x (List.mem_cons_of_mem c hx)).2)]
  rw [List.filter_eq_self]
  intro a ha
  exact decide_eq_true (hcomp a ha).1

theorem head?_take_succ (l : Str) (n : Nat) : (l.take (n + 1)).head? = l.head? := by
  cases l <;> simp

theorem not_startsWith_of_head (l : Str) (h : l.head? ≠ some '#') :
    ¬ startsWithStr negMarker l = true := by
  intro hsw
  rw [startsWithStr, decide_eq_true_eq] at hsw
  have : (l.take negMarker.length).head? = l.head? := head?_take_succ l 9
  rw [hsw] at this
  exact h (this ▸ rfl)

theorem parseLine_positive (root ap : List Str) (hap : dotFree ap) (hroot : dotFree root)
    (hv : let rel := diffPaths ap root
      rel ≠ [] ∧ (∀ c ∈ rel, c ≠ [] ∧ '/' ∉ c) ∧
      (joinSlash rel).head? ≠ some '#' ∧ trimStr (joinSlash rel) = joinSlash rel) :
    parseLine root (joinSlash (diffPaths ap root)) = some (.positive ap) := by
  obtain ⟨hne, hcomp, hhead, htrim⟩ := hv
  rw [parseLine, if_neg (not_startsWith_of_head _ hhead), if_neg hhead, htrim,
    lineComps_join _ hne hcomp, normalizePath_join_diffPaths ap root hap hroot]

theorem parseLine_negative (root ap : List Str) (hap : dotFree ap) (hroot : dotFree root)
    (hne : diffPaths ap root ≠ [])
    (hcomp : ∀ c ∈ diffPaths ap root, c ≠ [] ∧ '/' ∉ c)
    (htrim : trimStr (joinSlash (diffPaths ap root)) = joinSlash (diffPaths ap root)) :
    parseLine root (negMarker ++ joinSlash (diffPaths ap root)) = some (.negative ap) := by
  have hsw : startsWithStr negMarker (negMarker ++ joinSlash (diffPaths ap root)) = true := by
    rw [startsWithStr, decide_eq_true_eq, List.take_left]
  rw [parseLine, if_pos hsw, List.drop_left, htrim, lineComps_join _ hne hcomp,
    normalizePath_join_diffPaths ap root hap hroot]

theorem parseLines_append (root : List Str) (xs ys : List Str) :
    parseLines root (xs ++ ys) = parseLines root xs ++ parseLines root ys := by
  rw [parseLines, List.filterMap_append]
  rfl

instance {ε α : Type} [DecidableEq ε] [DecidableEq α] : DecidableEq (Except ε α) := fun x y =>
  match x, y with
  | .ok a, .ok b =>
    if h : a = b then isTrue (by rw [h]) else isFalse (by intro hc; cases hc; exact h rfl)
  | .error a, .error b =>
    if h : a = b then isTrue (by rw [h]) else isFalse (by intro hc; cases hc; exact h rfl)
  | .ok _, .error _ => isFalse (by intro hc; cases hc)
  | .error _, .ok _ => isFalse (by intro hc; cases hc)

theorem open_add_one (root : List Str) (pl : M3uPlaylist) (v : Bool × List Str)
    (hroot : dotFree root)
    (hopen : M3uPlaylist.open root (some pl.file) = .ok pl)
    (hv : validVerdict root v.2) :
    M3uPlaylist.open root (some (if v.1 then pl.add_positive v.2 else pl.add_negative v.2).file)
      = .ok (if v.1 then pl.add_positive v.2 else pl.add_negative v.2) := by
  obtain ⟨b, p⟩ := v
  cases hfile : pl.file with
  | nil => rw [hfile] at hopen; exact absurd hopen (by simp [M3uPlaylist.open])
  | cons first rest =>
    rw [hfile, M3uPlaylist.open] at hopen
    by_cases htrim : trimStr first = headerLine
    · rw [if_pos htrim] at hopen
      have hpl : pl = ⟨root, parseLines root rest, first :: rest⟩ := by
        cases hopen; rfl
      subst hpl
      have hapdf : dotFree (normalizePath p) := normalizePath_dotFree p
      obtain ⟨hne, hcomp, hhead, hvtrim⟩ := hv
      cases b with
      | true =>
        have hline : parseLines root [joinSlash (diffPaths (normalizePath p) root)]
            = [.positive (normalizePath p)] := by
          rw [parseLines, List.filterMap_cons,
            parseLine_positive root (normalizePath p) hapdf hroot ⟨hne, hcomp, hhead, hvtrim⟩]
          rfl
        have hred : (M3uPlaylist.mk root (parseLines root rest) (first :: rest)).add_positive p
            = ⟨root, parseLines root rest ++ [.positive (normalizePath p)],
                first :: (rest ++ [joinSlash (diffPaths (normalizePath p) root)])⟩ := rfl
        rw [if_pos rfl, hred, M3uPlaylist.open, if_pos htrim, parseLines_append, hline]
      | false =>
        have hline : parseLines root
            [negMarker ++ joinSlash (diffPaths (normalizePath p) root)]
            = [.negative (normalizePath p)] := by
          rw [parseLines, List.filterMap_cons,
            parseLine_negative root (normalizePath p) hapdf hroot hne hcomp hvtrim]
          rfl
        have hred : (M3uPlaylist.mk root (parseLines root rest) (first :: rest)).add_negative p
            = ⟨root, parseLines root rest ++ [.negative (normalizePath p)],
                first :: (rest ++ [negMarker ++ joinSlash (diffPaths (normalizePath p) root)])⟩ :=
          rfl
        rw [if_neg (by simp), hred, M3uPlaylist.open, if_pos htrim, parseLines_append, hline]
    · rw [if_neg htrim] at hopen
      cases hopen

/-- Claim C6 (amended theorem): for every consistently opened playlist and
every sequence of appended verdicts whose relative paths are nonempty,
have nonempty slash-free components, do not begin with `#` and are
unchanged by trimming, re-opening the backing file reproduces exactly the
in-memory playlist — the same entries, in the same order, with the same
polarity. -/
theorem claim_C6_amended (root : List Str) (pl : M3uPlaylist) (vs : List (Bool × List Str))
    (hroot : dotFree root)
    (hopen : M3uPlaylist.open root (some pl.file) = .ok pl)
    (hvs : ∀ v ∈ vs, validVerdict root v.2) :
    M3uPlaylist.open root (some (applyVerdicts pl vs).file) = .ok (applyVerdicts pl vs) := by
  induction vs generalizing pl with
  | nil => exact hopen
  | cons v rest ih =>
    have hstep := open_add_one root pl v hroot hopen (hvs v (List.mem_cons_self v rest))
    have : applyVerdicts pl (v :: rest)
        = applyVerdicts (if v.1 then pl.add_positive v.2 else pl.add_negative v.2) rest := rfl
    rw [this]
    exact ih _ hstep (fun w hw => hvs w (List.mem_cons_of_mem v hw))

/-- Witness for claim C6's amended theorem: a fresh playlist under root
`r`, appending a positive verdict for `r/a` and a negative one for `r/b`,
round-trips through its file. -/
theorem claim_C6_witness :
    dotFree [['r']] ∧
    M3uPlaylist.open [['r']] (some (⟨[['r']], [], [headerLine]⟩ : M3uPlaylist).file)
      = .ok ⟨[['r']], [], [headerLine]⟩ ∧
    (∀ v ∈ ([(true, [['r'], ['a']]), (false, [['r'], ['b']])] : List (Bool × List Str)),
      validVerdict [['r']] v.2) ∧
    M3uPlaylist.open [['r']]
        (some (applyVerdicts ⟨[['r']], [], [headerLine]⟩
          [(true, [['r'], ['a']]), (false, [['r'], ['b']])]).file)
      = .ok (applyVerdicts ⟨[['r']], [], [headerLine]⟩
          [(true, [['r'], ['a']]), (false, [['r'], ['b']])]) :=
  ⟨by decide, by decide, by decide,
    claim_C6_amended [['r']] ⟨[['r']], [], [headerLine]⟩ _ (by decide) (by decide) (by decide)⟩

/-- Claim C6 (counterexample): appending a positive verdict for the
absolute path `r/#a` — a filename beginning with `#` — writes the line
`#a`, which re-opening then discards as a comment, so the reopened
playlist has no entries while the in-memory playlist has one. -/
theorem claim_C6_counterexample :
    M3uPlaylist.open [['r']]
        (some ((⟨[['r']], [], [headerLine]⟩ : M3uPlaylist).add_positive [['r'], ['#', 'a']]).file)
      = .ok ⟨[['r']], [], [headerLine, ['#', 'a']]⟩ ∧
    ((⟨[['r']], [], [headerLine]⟩ : M3uPlaylist).add_positive [['r'], ['#', 'a']]).entries
      = [.positive [['r'], ['#', 'a']]] ∧
    ([] : List PlaylistEntry) ≠ [.positive [['r'], ['#', 'a']]] := by
  refine ⟨by decide, by decide, by decide⟩

/-- Claim C8 (counterexample): a first line of `#EXTM3U` followed by a
trailing space is not the literal `#EXTM3U`, yet `M3uPlaylist::open`
accepts it, because the code compares the trimmed first line. -/
theorem claim_C8_counterexample :
    (['#', 'E', 'X', 'T', 'M', '3', 'U', ' '] : Str) ≠ headerLine ∧
    M3uPlaylist.open [] (some [['#', 'E', 'X', 'T', 'M', '3', 'U', ' ']])
      = .ok ⟨[], [], [['#', 'E', 'X', 'T', 'M', '3', 'U', ' ']]⟩ := by
  refine ⟨by decide, by decide⟩

/-- Claim C8 (amended): `M3uPlaylist::open` on an existing file whose first
line does not trim to `#EXTM3U` returns a playlist-format error (so no
entries are loaded), and on a nonexistent path creates the file with
`#EXTM3U` as its only line and returns an empty playlist. -/
theorem claim_C8_amended :
    (∀ (root : List Str) (first : Str) (rest : List Str), trimStr first ≠ headerLine →
      M3uPlaylist.open root (some (first :: rest)) = .error .missingHeader) ∧
    (∀ root : List Str, M3uPlaylist.open root none = .ok ⟨root, [], [headerLine]⟩) := by
  constructor
  · intro root first rest h
    rw [M3uPlaylist.open, if_neg h]
  · intro root
    rfl

/-- Witness for claim C8's amended theorem: a file whose first line is `#x`
is rejected, and opening a nonexistent file yields the fresh header. -/
theorem claim_C8_witness :
    trimStr ['#', 'x'] ≠ headerLine ∧
    M3uPlaylist.open [] (some [['#', 'x']]) = .error .missingHeader ∧
    M3uPlaylist.open [] none = .ok ⟨[], [], [headerLine]⟩ :=
  ⟨by decide, claim_C8_amended.1 [] ['#', 'x'] [] (by decide), claim_C8_amended.2 []⟩

/-! ### Candidate entries and the interactive classification loop
(src/main.rs `Entry`, `Build::classification_loop`,
`Build::process_classification_result`; src/classifier.rs
`DirSizeClassifier`) -/

/-- One candidate file awaiting classification (src/main.rs lines 183-190).
`path` models `file.dir.join(&file.file_name)` as absolute components; the
tokens and n-grams are filled in by `Build::generate_ngrams`; `scores`
holds one `f64` (here: real) per active classifier. -/
structure Entry where
  path : List Str
  size : Nat
  normalized_path : Str
  tokens : List Nat
  ngrams : List Ngram
  scores : List ℝ

/-- `DirSizeClassifier` (src/classifier.rs lines 191-227).  The
directory-to-count hash map is modelled as a total function with `0` for
absent directories; the map's erase-at-zero step is thereby representation
only.  The parent directory of an entry's absolute path is its component
list with the last component dropped. -/
structure DirSizeClassifier where
  log_base : ℝ
  offset : Nat
  reverse : Bool
  dir_counts : List Str → Nat

/-- `DirSizeClassifier::add_entry`. -/
def DirSizeClassifier.add_entry (c : DirSizeClassifier) (e : Entry) : DirSizeClassifier :=
  { c with dir_counts := fun d =>
      if d = e.path.dropLast then c.dir_counts d + 1 else c.dir_counts d }

/-- `DirSizeClassifier::remove_entry`: decrement when the directory is
present (the `Occupied` branch); `Nat` truncated subtraction also covers
the absent (count zero) no-op case. -/
def DirSizeClassifier.remove_entry (c : DirSizeClassifier) (e : Entry) : DirSizeClassifier :=
  { c with dir_counts := fun d =>
      if d = e.path.dropLast then c.dir_counts d - 1 else c.dir_counts d }

/-- `vlc::Classification`: the three verdicts. -/
inductive Classification where
  | positive
  | negative
  | skipped
deriving DecidableEq

/-- The mutable state the classification loop threads through verdicts:
the candidate pool, the DirSize classifier (when active), the naive-Bayes
classifier, and the playlist's entry list. -/
structure BuildLoopState where
  entries : List Entry
  dir_size : DirSizeClassifier
  naive_bayes : NaiveBayesClassifier
  playlist : List PlaylistEntry

/-- `Build::process_classification_result` (src/main.rs lines 608-637):
remove the entry from DirSize's counts, then on Positive/Negative append
to the playlist and train the matching naive-Bayes side.  The code marks
the Skipped arm `unreachable!()`; it is never invoked with it (see
`verdictResult`). -/
def processClassificationResult (st : BuildLoopState) (e : Entry) (cls : Classification) :
    BuildLoopState :=
  let st1 := { st with dir_size := st.dir_size.remove_entry e }
  match cls with
  | .positive =>
    { st1 with
      playlist := st1.playlist ++ [.positive e.path]
      naive_bayes := st1.naive_bayes.train_positive e.ngrams }
  | .negative =>
    { st1 with
      playlist := st1.playlist ++ [.negative e.path]
      naive_bayes := st1.naive_bayes.train_negative e.ngrams }
  | .skipped => st1

/-- The verdict post-processing of `Build::play_file_and_get_classification`
(src/main.rs lines 536-549): a Skipped verdict (like any startup error)
becomes `None`, so the caller never applies it. -/
def verdictResult : Classification → Option Classification
  | .skipped => none
  | c => some c

/-- The per-entry body of `Build::classification_loop` (src/main.rs lines
665-667): apply the verdict only when `play_file_and_get_classification`
returned one. -/
def applyVerdictLoop (st : BuildLoopState) (e : Entry) (cls : Classification) : BuildLoopState :=
  match verdictResult cls with
  | none => st
  | some c => processClassificationResult st e c

/-- One iteration of the classification loop draining a single entry from
the tail of the pool (src/main.rs lines 646-668 with `top_n = 1`): the
entry leaves the pool unconditionally, then its verdict is applied. -/
def loopIterationOne (st : BuildLoopState) (cls : Classification) : BuildLoopState :=
  match st.entries.getLast? with
  | none => st
  | some e => applyVerdictLoop { st with entries := st.entries.dropLast } e cls

/-- The directory tally of a candidate pool: how many pool entries live in
each directory.  `DirSize` is consistent with a pool when its counts equal
this tally. -/
def dirTally (entries : List Entry) : List Str → Nat :=
  fun d => entries.countP (fun e => e.path.dropLast = d)

theorem dirTally_append (xs ys : List Entry) (d : List Str) :
    dirTally (xs ++ ys) d = dirTally xs d + dirTally ys d := by
  rw [dirTally, List.countP_append]
  rfl

/-- Claim C7 (counterexample): with one pool entry in directory `a` and
DirSize consistent with the pool, a Skipped verdict drains the entry but
never calls `remove_entry`, so the drained entry still contributes to
DirSize's counts: the count of `a` stays 1 while the remaining pool is
empty. -/
theorem claim_C7_counterexample :
    (loopIterationOne
        ⟨[⟨[['a'], ['f']], 0, [], [], [], []⟩],
          ⟨2, 0, false, dirTally [⟨[['a'], ['f']], 0, [], [], [], []⟩]⟩,
          NaiveBayesClassifier.new false, []⟩ .skipped).entries = [] ∧
    (loopIterationOne
        ⟨[⟨[['a'], ['f']], 0, [], [], [], []⟩],
          ⟨2, 0, false, dirTally [⟨[['a'], ['f']], 0, [], [], [], []⟩]⟩,
          NaiveBayesClassifier.new false, []⟩ .skipped).dir_size.dir_counts [['a']] = 1 ∧
    dirTally (loopIterationOne
        ⟨[⟨[['a'], ['f']], 0, [], [], [], []⟩],
          ⟨2, 0, false, dirTally [⟨[['a'], ['f']], 0, [], [], [], []⟩]⟩,
          NaiveBayesClassifier.new false, []⟩ .skipped).entries [['a']] = 0 :=
  ⟨rfl, rfl, rfl⟩

/-- Claim C7 (amended): in a loop iteration that drains one entry, a
Positive or Negative verdict keeps the DirSize directory-count map
consistent with the remaining pool, and a Skipped verdict updates no
classifier and no playlist state — but then the DirSize map retains the
drained entry's count (it is not removed), so consistency with the
remaining pool holds only for Positive/Negative verdicts. -/
theorem claim_C7_amended (st : BuildLoopState) (cls : Classification)
    (hinv : ∀ d, st.dir_size.dir_counts d = dirTally st.entries d) :
    (cls ≠ .skipped →
      ∀ d, (loopIterationOne st cls).dir_size.dir_counts d
        = dirTally (loopIterationOne st cls).entries d) ∧
    (cls = .skipped →
      (loopIterationOne st cls).dir_size = st.dir_size ∧
      (loopIterationOne st cls).naive_bayes = st.naive_bayes ∧
      (loopIterationOne st cls).playlist = st.playlist) := by
  cases hlast : st.entries.getLast? with
  | none =>
    rw [loopIterationOne]
    constructor
    · intro _ d
      rw [hlast]
      exact hinv d
    · intro _
      rw [hlast]
      exact ⟨rfl, rfl, rfl⟩
  | some e =>
    have hdecomp : st.entries = st.entries.dropLast ++ [e] :=
      (List.dropLast_append_getLast? e hlast).symm
    have htally : ∀ d, dirTally st.entries d
        = dirTally st.entries.dropLast d + (if e.path.dropLast = d then 1 else 0) := by
      intro d
      conv =>
        lhs
        rw [hdecomp]
      rw [dirTally_append]
      congr 1
      rw [dirTally, List.countP_cons, List.countP_nil]
      simp
    constructor
    · intro hne d
      rw [loopIterationOne, hlast]
      cases cls with
      | skipped => exact absurd rfl hne
      | positive =>
        show (st.dir_size.remove_entry e).dir_counts d = dirTally st.entries.dropLast d
        rw [DirSizeClassifier.remove_entry]
        show (if d = e.path.dropLast then st.dir_size.dir_counts d - 1
          else st.dir_size.dir_counts d) = dirTally st.entries.dropLast d
        by_cases hd : d = e.path.dropLast
        · rw [if_pos hd, hinv d, htally d, hd]
          simp
        · have hd' : ¬ (e.path.dropLast = d) := fun h => hd (Eq.symm h)
          rw [if_neg hd, hinv d, htally d, if_neg hd', Nat.add_zero]
      | negative =>
        show (st.dir_size.remove_entry e).dir_counts d = dirTally st.entries.dropLast d
        rw [DirSizeClassifier.remove_entry]
        show (if d = e.path.dropLast then st.dir_size.dir_counts d - 1
          else st.dir_size.dir_counts d) = dirTally st.entries.dropLast d
        by_cases hd : d = e.path.dropLast
        · rw [if_pos hd, hinv d, htally d, hd]
          simp
        · have hd' : ¬ (e.path.dropLast = d) := fun h => hd (Eq.symm h)
          rw [if_neg hd, hinv d, htally d, if_neg hd', Nat.add_zero]
    · intro hcls
      subst hcls
      rw [loopIterationOne, hlast]
      exact ⟨rfl, rfl, rfl⟩

/-! ### Score aggregation and ranking
(`Build::calculate_scores_and_sort_entries`, src/main.rs lines 481-519) -/

/-- `f64::EPSILON` is exactly `2⁻⁵²`. -/
noncomputable def f64Epsilon : ℝ := 1 / 2 ^ 52

/-- `col_scores.iter().copied().reduce(f64::min)`: `None` on an empty
column, otherwise the left fold of `min` over the column. -/
noncomputable def listMinR : List ℝ → Option ℝ
  | [] => none
  | x :: xs => some (xs.foldl min x)

/-- The `f64::max` reduction of a column. -/
noncomputable def listMaxR : List ℝ → Option ℝ
  | [] => none
  | x :: xs => some (xs.foldl max x)

/-- Column `j` of a pool's score matrix (`entries.iter().map(|e| e.scores[col])`). -/
noncomputable def colScores (es : List Entry) (j : Nat) : List ℝ :=
  es.map (fun e => e.scores.getD j 0)

/-- The raw-score pass of the aggregator (src/main.rs lines 489-493):
write classifier `i`'s score into column `i` of every entry.  The Rust
loop writes in place; since no classifier reads `scores`, this equals
rebuilding each score vector as the map over classifiers. -/
noncomputable def writeRawScores (cs : List (Entry → ℝ)) (entries : List Entry) : List Entry :=
  entries.map (fun e => { e with scores := cs.map (fun c => c e) })

/-- The per-column normalization pass of the aggregator (src/main.rs lines
496-508): with the column's min and max, when `|max - min| > ε` rewrite
each cell of column `j` to `(raw - min) / (max - min)`, otherwise leave
the entries untouched. -/
noncomputable def normalizeCol (es : List Entry) (j : Nat) : List Entry :=
  match listMinR (colScores es j), listMaxR (colScores es j) with
  | some mn, some mx =>
    if |mx - mn| > f64Epsilon then
      es.map (fun e =>
        { e with scores := e.scores.set j ((e.scores.getD j 0 - mn) / (mx - mn)) })
    else es
  | _, _ => es

/-- The same normalization expressed on a bare column of values. -/
noncomputable def normalizedColumn (col : List ℝ) : List ℝ :=
  match listMinR col, listMaxR col with
  | some mn, some mx =>
    if |mx - mn| > f64Epsilon then col.map (fun x => (x - mn) / (mx - mn)) else col
  | _, _ => col

/-- Sum of an entry's score vector (`scores.iter().sum::<f64>()`). -/
noncomputable def sumScores (e : Entry) : ℝ := e.scores.sum

/-- The sort comparator: ascending by summed score (entries with equal sums
compare equal, so the stable sort keeps their relative order). -/
noncomputable def scoreLE (a b : Entry) : Bool :=
  @decide (sumScores a ≤ sumScores b) (Classical.propDecidable _)

/-- `Build::calculate_scores_and_sort_entries`: raw scores, per-column
min-max normalization (columns processed in index order), then a stable
sort ascending by summed score. -/
noncomputable def calculateScoresAndSortEntries (cs : List (Entry → ℝ)) (entries : List Entry) :
    List Entry :=
  ((List.range cs.length).foldl normalizeCol (writeRawScores cs entries)).mergeSort scoreLE

theorem foldl_min_le_init (xs : List ℝ) : ∀ a : ℝ, xs.foldl min a ≤ a := by
  induction xs with
  | nil => intro a; simp
  | cons x xs ih => intro a; exact le_trans (ih (min a x)) (min_le_left a x)

theorem foldl_min_le_mem (xs : List ℝ) : ∀ (a : ℝ), ∀ x ∈ xs, xs.foldl min a ≤ x := by
  induction xs with
  | nil => intro a x hx; simp at hx
  | cons y ys ih =>
    intro a x hx
    rcases List.mem_cons.mp hx with rfl | hx
    · exact le_trans (foldl_min_le_init ys (min a x)) (min_le_right a x)
    · exact ih (min a y) x hx

theorem init_le_foldl_max (xs : List ℝ) : ∀ a : ℝ, a ≤ xs.foldl max a := by
  induction xs with
  | nil => intro a; simp
  | cons x xs ih => intro a; exact le_trans (le_max_left a x) (ih (max a x))

theorem mem_le_foldl_max (xs : List ℝ) : ∀ (a : ℝ), ∀ x ∈ xs, x ≤ xs.foldl max a := by
  induction xs with
  | nil => intro a x hx; simp at hx
  | cons y ys ih =>
    intro a x hx
    rcases List.mem_cons.mp hx with rfl | hx
    · exact le_trans (le_max_right a x) (init_le_foldl_max ys (max a x))
    · exact ih (max a y) x hx

theorem listMinR_le (l : List ℝ) (mn : ℝ) (h : listMinR l = some mn) : ∀ x ∈ l, mn ≤ x := by
  cases l with
  | nil => cases h
  | cons x xs =>
    rw [listMinR] at h
    cases h
    intro y hy
    rcases List.mem_cons.mp hy with rfl | hy
    · exact foldl_min_le_init xs y
    · exact foldl_min_le_mem xs x y hy

theorem le_listMaxR (l : List ℝ) (mx : ℝ) (h : listMaxR l = some mx) : ∀ x ∈ l, x ≤ mx := by
  cases l with
  | nil => cases h
  | cons x xs =>
    rw [listMaxR] at h
    cases h
    intro y hy
    rcases List.mem_cons.mp hy with rfl | hy
    · exact init_le_foldl_max xs y
    · exact mem_le_foldl_max xs x y hy

theorem listMinR_le_listMaxR (l : List ℝ) (mn mx : ℝ) (hmn : listMinR l = some mn)
    (hmx : listMaxR l = some mx) : mn ≤ mx := by
  cases l with
  | nil => cases hmn
  | cons x xs =>
    exact le_trans (listMinR_le _ _ hmn x (List.mem_cons_self x xs))
      (le_listMaxR _ _ hmx x (List.mem_cons_self x xs))

theorem listMinR_some_iff_maxR (l : List ℝ) :
    (∃ mn, listMinR l = some mn) ↔ (∃ mx, listMaxR l = some mx) := by
  cases l with
  | nil => simp [listMinR, listMaxR]
  | cons x xs => simp [listMinR, listMaxR]

theorem normalizeCol_eq_some (es : List Entry) (j : Nat) (mn mx : ℝ)
    (hmin : listMinR (colScores es j) = some mn) (hmax : listMaxR (colScores es j) = some mx) :
    normalizeCol es j =
      if |mx - mn| > f64Epsilon then
        es.map (fun e =>
          { e with scores := e.scores.set j ((e.scores.getD j 0 - mn) / (mx - mn)) })
      else es := by
  rw [normalizeCol, hmin, hmax]

theorem normalizeCol_eq_of_min_none (es : List Entry) (j : Nat)
    (hmin : listMinR (colScores es j) = none) : normalizeCol es j = es := by
  rw [normalizeCol, hmin]

theorem normalizedColumn_eq_some (col : List ℝ) (mn mx : ℝ)
    (hmin : listMinR col = some mn) (hmax : listMaxR col = some mx) :
    normalizedColumn col =
      if |mx - mn| > f64Epsilon then col.map (fun x => (x - mn) / (mx - mn)) else col := by
  rw [normalizedColumn, hmin, hmax]

theorem normalizedColumn_eq_of_min_none (col : List ℝ) (hmin : listMinR col = none) :
    normalizedColumn col = col := by
  rw [normalizedColumn, hmin]

theorem normalizeCol_scores_prop (P : Nat → Prop) (es : List Entry) (j : Nat)
    (h : ∀ e ∈ es, P e.scores.length) : ∀ e ∈ normalizeCol es j, P e.scores.length := by
  cases hmin : listMinR (colScores es j) with
  | none => rw [normalizeCol_eq_of_min_none es j hmin]; exact h
  | some mn =>
    obtain ⟨mx, hmax⟩ := (listMinR_some_iff_maxR (colScores es j)).mp ⟨mn, hmin⟩
    rw [normalizeCol_eq_some es j mn mx hmin hmax]
    by_cases hcond : |mx - mn| > f64Epsilon
    · rw [if_pos hcond]
      intro e' he'
      obtain ⟨e, he, rfl⟩ := List.mem_map.mp he'
      simpa using h e he
    · rw [if_neg hcond]; exact h

theorem colScores_normalizeCol_ne (es : List Entry) (i j : Nat) (hij : j ≠ i) :
    colScores (normalizeCol es i) j = colScores es j := by
  cases hmin : listMinR (colScores es i) with
  | none => rw [normalizeCol_eq_of_min_none es i hmin]
  | some mn =>
    obtain ⟨mx, hmax⟩ := (listMinR_some_iff_maxR (colScores es i)).mp ⟨mn, hmin⟩
    rw [normalizeCol_eq_some es i mn mx hmin hmax]
    by_cases hcond : |mx - mn| > f64Epsilon
    · rw [if_pos hcond, colScores, colScores, List.map_map]
      apply List.map_congr_left
      intro e _
      simp only [Function.comp_apply]
      rw [List.getD_eq_getElem?_getD, List.getD_eq_getElem?_getD,
        List.getElem?_set_ne (fun h => hij h.symm), ← List.getD_eq_getElem?_getD]
    · rw [if_neg hcond]

theorem colScores_foldl_notMem (es : List Entry) (js : List Nat) (j : Nat) (hj : j ∉ js) :
    colScores (js.foldl normalizeCol es) j = colScores es j := by
  induction js generalizing es with
  | nil => rfl
  | cons i rest ih =>
    rw [List.foldl_cons, ih _ (fun h => hj (List.mem_cons_of_mem i h)),
      colScores_normalizeCol_ne es i j (fun h => hj (h ▸ List.mem_cons_self i rest))]

theorem colScores_normalizeCol_self (es : List Entry) (j : Nat)
    (h : ∀ e ∈ es, j < e.scores.length) :
    colScores (normalizeCol es j) j = normalizedColumn (colScores es j) := by
  cases hmin : listMinR (colScores es j) with
  | none =>
    rw [normalizeCol_eq_of_min_none es j hmin, normalizedColumn_eq_of_min_none _ hmin]
  | some mn =>
    obtain ⟨mx, hmax⟩ := (listMinR_some_iff_maxR (colScores es j)).mp ⟨mn, hmin⟩
    rw [normalizeCol_eq_some es j mn mx hmin hmax, normalizedColumn_eq_some _ mn mx hmin hmax]
    by_cases hcond : |mx - mn| > f64Epsilon
    · rw [if_pos hcond, if_pos hcond, colScores, List.map_map, colScores, List.map_map]
      apply List.map_congr_left
      intro e he
      simp only [Function.comp_apply]
      rw [List.getD_eq_getElem?_getD, List.getElem?_set_self (by simpa using h e he)]
      rfl
    · rw [if_neg hcond, if_neg hcond]

theorem foldl_normalizeCol_scores_prop (P : Nat → Prop) (js : List Nat) :
    ∀ es : List Entry, (∀ e ∈ es, P e.scores.length) →
      ∀ e ∈ js.foldl normalizeCol es, P e.scores.length := by
  induction js with
  | nil => intro es h; exact h
  | cons i rest ih =>
    intro es h
    rw [List.foldl_cons]
    exact ih _ (normalizeCol_scores_prop P es i h)

theorem colScores_foldl_range (n : Nat) :
    ∀ (es : List Entry) (j : Nat), j < n → (∀ e ∈ es, j < e.scores.length) →
      colScores ((List.range n).foldl normalizeCol es) j = normalizedColumn (colScores es j) := by
  induction n with
  | zero => intro es j hj _; omega
  | succ n ih =>
    intro es j hj hlen
    rw [List.range_succ, List.foldl_append, List.foldl_cons, List.foldl_nil]
    by_cases hjn : j = n
    · subst hjn
      rw [colScores_normalizeCol_self _ j
        (foldl_normalizeCol_scores_prop (j < ·) (List.range j) es hlen),
        colScores_foldl_notMem es (List.range j) j (by simp)]
    · have hj' : j < n := by omega
      rw [colScores_normalizeCol_ne _ n j hjn]
      exact ih es j hj' hlen

theorem normalizedColumn_bounds (col : List ℝ) (mn mx : ℝ) (hmin : listMinR col = some mn)
    (hmax : listMaxR col = some mx) (hcond : |mx - mn| > f64Epsilon) :
    ∀ v ∈ normalizedColumn col, 0 ≤ v ∧ v ≤ 1 := by
  have hmnmx : mn ≤ mx := listMinR_le_listMaxR col mn mx hmin hmax
  have heps : (0 : ℝ) < f64Epsilon := by rw [f64Epsilon]; positivity
  have hpos : 0 < mx - mn := by
    rw [abs_of_nonneg (sub_nonneg.mpr hmnmx)] at hcond
    linarith
  rw [normalizedColumn_eq_some col mn mx hmin hmax, if_pos hcond]
  intro v hv
  obtain ⟨x, hx, rfl⟩ := List.mem_map.mp hv
  refine ⟨div_nonneg (sub_nonneg.mpr (listMinR_le col mn hmin x hx)) (le_of_lt hpos), ?_⟩
  rw [div_le_one hpos]
  exact sub_le_sub_right (le_listMaxR col mx hmax x hx) mn

theorem scoreLE_trans : ∀ a b c : Entry, scoreLE a b → scoreLE b c → scoreLE a c := by
  intro a b c hab hbc
  simp only [scoreLE, decide_eq_true_eq] at *
  exact le_trans hab hbc

theorem scoreLE_total : ∀ a b : Entry, scoreLE a b || scoreLE b a := by
  intro a b
  simp only [scoreLE, Bool.or_eq_true, decide_eq_true_eq]
  exact le_total _ _

/-- Claim C5: after the score aggregator runs on any candidate pool with
any list of active classifiers, (a) every entry carries exactly one score
per classifier; (b) every column of the normalized matrix equals the
min-max normalization of the raw column — when the raw column's spread
exceeds `f64::EPSILON` it is rewritten cell-wise to
`(raw - min)/(max - min)` and every resulting cell lies in `[0, 1]`,
otherwise it is left untouched; and (c) the output is a permutation of the
normalized pool, sorted ascending by summed score, stably: any pair in
order of non-decreasing sums keeps its relative order. -/
theorem claim_C5 (cs : List (Entry → ℝ)) (entries : List Entry) :
    (∀ e ∈ calculateScoresAndSortEntries cs entries, e.scores.length = cs.length) ∧
    (∀ j, j < cs.length →
      colScores ((List.range cs.length).foldl normalizeCol (writeRawScores cs entries)) j
        = normalizedColumn (colScores (writeRawScores cs entries) j)) ∧
    (∀ (col : List ℝ) (mn mx : ℝ), listMinR col = some mn → listMaxR col = some mx →
      (|mx - mn| > f64Epsilon →
        normalizedColumn col = col.map (fun x => (x - mn) / (mx - mn)) ∧
        ∀ v ∈ normalizedColumn col, 0 ≤ v ∧ v ≤ 1) ∧
      (¬ |mx - mn| > f64Epsilon → normalizedColumn col = col)) ∧
    (calculateScoresAndSortEntries cs entries).Perm
      ((List.range cs.length).foldl normalizeCol (writeRawScores cs entries)) ∧
    (calculateScoresAndSortEntries cs entries).Pairwise
      (fun a b => sumScores a ≤ sumScores b) ∧
    (∀ a b : Entry, sumScores a ≤ sumScores b →
      [a, b].Sublist ((List.range cs.length).foldl normalizeCol (writeRawScores cs entries)) →
      [a, b].Sublist (calculateScoresAndSortEntries cs entries)) := by
  have hraw : ∀ e ∈ writeRawScores cs entries, e.scores.length = cs.length := by
    intro e' he'
    obtain ⟨e, -, rfl⟩ := List.mem_map.mp he'
    simp
  refine ⟨?_, ?_, ?_, ?_, ?_, ?_⟩
  · intro e he
    rw [calculateScoresAndSortEntries, List.mem_mergeSort] at he
    exact foldl_normalizeCol_scores_prop (· = cs.length) (List.range cs.length)
      (writeRawScores cs entries) hraw e he
  · intro j hj
    exact colScores_foldl_range cs.length (writeRawScores cs entries) j hj
      (fun e he => (hraw e he) ▸ hj)
  · intro col mn mx hmin hmax
    constructor
    · intro hcond
      refine ⟨?_, normalizedColumn_bounds col mn mx hmin hmax hcond⟩
      rw [normalizedColumn_eq_some col mn mx hmin hmax, if_pos hcond]
    · intro hcond
      rw [normalizedColumn_eq_some col mn mx hmin hmax, if_neg hcond]
  · exact List.mergeSort_perm _ scoreLE
  · exact (List.sorted_mergeSort scoreLE_trans scoreLE_total _).imp
      (fun h => by simpa [scoreLE, decide_eq_true_eq] using h)
  · intro a b hab hsub
    exact List.sublist_mergeSort scoreLE_trans scoreLE_total
      (List.pairwise_pair.mpr (by simpa [scoreLE, decide_eq_true_eq] using hab)) hsub

/-- Witness for claim C5 at a concrete single-entry pool with one constant
classifier: the raw column `[0]` has zero spread, below `f64::EPSILON`,
so normalization leaves it untouched. -/
theorem claim_C5_witness :
    ¬ |(0 : ℝ) - 0| > f64Epsilon ∧
    normalizedColumn [(0 : ℝ)] = [(0 : ℝ)] :=
  ⟨by rw [show |(0 : ℝ) - 0| = 0 by simp, f64Epsilon]; push_neg; positivity,
    ((claim_C5 [fun _ => (0 : ℝ)]
        [⟨[], 0, [], [], [], []⟩]).2.2.1 [(0 : ℝ)] 0 0 rfl rfl).2
      (by rw [show |(0 : ℝ) - 0| = 0 by simp, f64Epsilon]; push_neg; positivity)⟩

/-- Witness for claim C7's amended theorem at a concrete one-entry pool
with a Positive verdict. -/
theorem claim_C7_witness :
    (∀ d, (⟨[⟨[['a'], ['f']], 0, [], [], [], []⟩],
        ⟨2, 0, false, dirTally [⟨[['a'], ['f']], 0, [], [], [], []⟩]⟩,
        NaiveBayesClassifier.new false, []⟩ : BuildLoopState).dir_size.dir_counts d
      = dirTally [⟨[['a'], ['f']], 0, [], [], [], []⟩] d) ∧
    (Classification.positive ≠ .skipped →
      ∀ d, (loopIterationOne
          ⟨[⟨[['a'], ['f']], 0, [], [], [], []⟩],
            ⟨2, 0, false, dirTally [⟨[['a'], ['f']], 0, [], [], [], []⟩]⟩,
            NaiveBayesClassifier.new false, []⟩ .positive).dir_size.dir_counts d
        = dirTally (loopIterationOne
            ⟨[⟨[['a'], ['f']], 0, [], [], [], []⟩],
              ⟨2, 0, false, dirTally [⟨[['a'], ['f']], 0, [], [], [], []⟩]⟩,
              NaiveBayesClassifier.new false, []⟩ .positive).entries d) :=
  ⟨fun _ => rfl,
    (claim_C7_amended
      ⟨[⟨[['a'], ['f']], 0, [], [], [], []⟩],
        ⟨2, 0, false, dirTally [⟨[['a'], ['f']], 0, [], [], [], []⟩]⟩,
        NaiveBayesClassifier.new false, []⟩ .positive (fun _ => rfl)).1⟩

/-! ### Pair tokenizer (src/tokenize.rs, with the `Tokens`/`TokenMap`
support from src/tokens.rs)

The `TokenMap` and `Tokens` versions called by the live src/tokenize.rs
(`TokenMap::new` with special characters, `from_str_and_create`,
`from_str_or_unknown`, `pairs(&token_map)`, `merge`) are not under src/ —
src/tokens.rs is an earlier draft of the same module; where the two
differ, the missing behaviour is modelled from the spec (§4.2) and marked
as such.  A token is its index into the vocabulary list; the string of
token `t` is the `t`-th entry.  The Bloom filter (src/bloom.rs) is a pure
performance pre-check: a `Tokens` whose Bloom misses the pair cannot
contain the pair, and `from_replace` reports via the length whether any
replacement happened, so skipping Bloom-negative sequences only skips
no-ops; the embedding therefore runs the exact replacement on every
sequence. -/

/-- A token id (`Token(u32)` in src/tokens.rs). -/
abbrev Token := Nat

/-- An adjacent pair of tokens (`Pair(Token, Token)` in src/tokens.rs). -/
abbrev Pair := Token × Token

/-- Modelled from the spec (§4.2, §3): the vocabulary maps tokens to
strings; id 0 is the reserved *unknown* token, ids `1..=lastSpecial` are
the special tokens (one per special character), and merges never touch
them. -/
structure TokenMap where
  strs : List Str
  lastSpecial : Nat

/-- Modelled from the spec: `TokenMap::new(special_chars)` reserves the
unknown token at id 0 and one token per special character. -/
def TokenMap.new (specials : List Char) : TokenMap :=
  ⟨[] :: specials.map (fun c => [c]), specials.length⟩

/-- First token whose string is `s` (the `str_token` hash lookup). -/
def TokenMap.lookup (m : TokenMap) (s : Str) : Option Token := m.strs.findIdx? (· = s)

/-- String form of a token (the `token_str` map; `get_str`). -/
def TokenMap.strOf (m : TokenMap) (t : Token) : Str := m.strs.getD t []

/-- `TokenMap::get_or_create_token` from src/tokens.rs. -/
def TokenMap.getOrCreate (m : TokenMap) (s : Str) : Token × TokenMap :=
  match m.lookup s with
  | some i => (i, m)
  | none => (m.strs.length, ⟨m.strs ++ [s], m.lastSpecial⟩)

/-- `TokenMap::merge` / `merge_create_token` (src/tokens.rs lines
124-127): allocate a fresh token whose string is the concatenation of the
pair's strings. -/
def TokenMap.merge (m : TokenMap) (p : Pair) : Token × TokenMap :=
  (m.strs.length, ⟨m.strs ++ [m.strOf p.1 ++ m.strOf p.2], m.lastSpecial⟩)

/-- `TokenMap::count`. -/
def TokenMap.count (m : TokenMap) : Nat := m.strs.length

/-- `Tokens::from_str_and_create` (per-character tokenization, creating
missing tokens; src/tokens.rs `from_str` with the live map threading). -/
def Tokens.fromStrAndCreate : Str → TokenMap → List Token × TokenMap
  | [], m => ([], m)
  | c :: cs, m =>
    let tm1 := m.getOrCreate [c]
    let rest := Tokens.fromStrAndCreate cs tm1.2
    (tm1.1 :: rest.1, rest.2)

/-- `Tokens::from_str_or_unknown` (src/tokenize.rs line 237): characters
missing from the trained map become the unknown token, id 0. -/
def Tokens.fromStrOrUnknown (m : TokenMap) (s : Str) : List Token :=
  s.map (fun c => (m.lookup [c]).getD 0)

/-- `Tokens::to_string` (src/tokens.rs lines 93-99): concatenate the
string forms of the tokens in order. -/
def tokensToString (m : TokenMap) (ts : List Token) : Str :=
  ts.foldl (fun acc t => acc ++ m.strOf t) []

/-- Adjacent pairs both of whose members are non-special (spec §4.2:
"pairs whose both members have token id strictly greater than the last
special token"; `Tokens::pairs(&token_map)` in the live sources). -/
def pairsOf (m : TokenMap) (ts : List Token) : List Pair :=
  (ts.zip ts.tail).filter (fun p => m.lastSpecial < p.1 ∧ m.lastSpecial < p.2)

/-- `Tokens::from_replace` (src/tokens.rs lines 59-75): one left-to-right
non-overlapping replacement pass of the pair `(a, b)` by `c`. -/
def replacePair (a b c : Token) : List Token → List Token
  | t1 :: t2 :: rest =>
    if t1 = a ∧ t2 = b then c :: replacePair a b c rest
    else t1 :: replacePair a b c (t2 :: rest)
  | l => l

/-- The sharded `Pair → i64` count structure of src/tokenize.rs, modelled
as one association list (shard assignment only distributes the same
key-value pairs; the maximum below is shard-agnostic). -/
abbrev PairCounts := List (Pair × Int)

/-- `update_pair` (src/tokenize.rs lines 16-35): add the delta to an
occupied key, removing it when the count reaches zero; insert the delta
for a vacant key. -/
def updatePair : PairCounts → Pair → Int → PairCounts
  | [], p, δ => [(p, δ)]
  | (q, c) :: rest, p, δ =>
    if q = p then (if c + δ = 0 then rest else (q, c + δ) :: rest)
    else (q, c) :: updatePair rest p δ

/-- Fold `update_pair` over a list of pairs with one delta. -/
def updatePairs (counts : PairCounts) (ps : List Pair) (δ : Int) : PairCounts :=
  ps.foldl (fun cts p => updatePair cts p δ) counts

/-- The derived lexicographic order on `(i64, Pair)` used by
`PairCounts::max` (`Iterator::max` over `(count, pair)` tuples). -/
def tupLe (x y : Int × Pair) : Bool :=
  x.1 < y.1 || (x.1 = y.1 && (x.2.1 < y.2.1 || (x.2.1 = y.2.1 && x.2.2 ≤ y.2.2)))

/-- `PairCounts::max` (src/tokenize.rs lines 73-83): the maximal
`(count, pair)` tuple across all entries, `none` when empty. -/
def countsMax : PairCounts → Option (Int × Pair)
  | [] => none
  | (p, c) :: rest =>
    some (rest.foldl (fun acc e => if tupLe acc (e.2, e.1) then (e.2, e.1) else acc) (c, p))

/-- Floor of the base-2 logarithm (`⌊log2 n⌋`, with 0 at 0), computed by
halving with an explicit fuel bound so that it reduces structurally; the
first argument of `log2Aux` only needs to be at least the bit length. -/
def log2Aux : Nat → Nat → Nat
  | 0, _ => 0
  | fuel + 1, n => if 2 ≤ n then log2Aux fuel (n / 2) + 1 else 0

/-- Floor of the base-2 logarithm of `n`. -/
def log2floor (n : Nat) : Nat := log2Aux n n

/-- The merge frequency threshold (src/tokenize.rs line 143):
`max(2, ⌊log2(N+1)⌋)`; the `f64::log2` truncation computes the floor of
the base-2 logarithm at every corpus size a run can reach, and the
`i64::max` of the two nonnegative operands is taken on `Nat` before the
cast. -/
def mergeMinFreq (n : Nat) : Int := (Nat.max 2 (log2floor (n + 1)) : Nat)

/-- The per-merge rewrite pass (src/tokenize.rs lines 198-225): replace
the pair in every sequence; when a sequence changed, decrement the
non-special pairs of the old sequence and increment those of the new one.
The parallel chunking merges the same per-sequence deltas; this is its
sequential linearization. -/
def mergeRewrite (tm : TokenMap) (a b merged : Token) (strs : List (List Token))
    (counts : PairCounts) : List (List Token) × PairCounts :=
  strs.foldl (fun acc s =>
    let r := replacePair a b merged s
    if r.length ≠ s.length then
      (acc.1 ++ [r], updatePairs (updatePairs acc.2 (pairsOf tm s) (-1)) (pairsOf tm r) 1)
    else (acc.1 ++ [s], acc.2)) ([], counts)

/-- The main merge loop of `PairTokenizer::new` (src/tokenize.rs lines
168-226), with explicit fuel (each iteration that proceeds performs at
least one replacement, so the summed sequence length bounds the number of
iterations; `PairTokenizer.new` supplies that bound). -/
def mergeLoop (minFreq : Int) :
    Nat → TokenMap → List (List Token) → PairCounts → List (Pair × Token) →
    TokenMap × List (Pair × Token)
  | 0, tm, _, _, ms => (tm, ms)
  | fuel + 1, tm, strs, counts, ms =>
    match countsMax counts with
    | none => (tm, ms)
    | some (cnt, pair) =>
      if cnt < minFreq then (tm, ms)
      else
        let mg := tm.merge pair
        let rw := mergeRewrite mg.2 pair.1 pair.2 mg.1 strs counts
        mergeLoop minFreq fuel mg.2 rw.1 rw.2 (ms ++ [(pair, mg.1)])

/-- The trained tokenizer: final vocabulary and ordered merge log
(src/tokenize.rs `PairTokenizer`). -/
structure PairTokenizer where
  token_map : TokenMap
  merges : List (Pair × Token)

/-- One step of the initial tokenization pass: tokenize one training
string with the shared map, appending the token sequence. -/
def initStep (acc : List (List Token) × TokenMap) (s : Str) : List (List Token) × TokenMap :=
  (acc.1 ++ [(Tokens.fromStrAndCreate s acc.2).1], (Tokens.fromStrAndCreate s acc.2).2)

/-- The initial tokenization pass of `PairTokenizer::new` (src/tokenize.rs
lines 121-131): specials are space and the path separator `/`; every
training string is split into per-character tokens, creating them in the
shared map. -/
def initialTokens (strings : List Str) : List (List Token) × TokenMap :=
  strings.foldl initStep ([], TokenMap.new [' ', '/'])

/-- The initial pair-count seeding of `PairTokenizer::new` (src/tokenize.rs
lines 155-162). -/
def seedCounts (tm : TokenMap) (tokensList : List (List Token)) : PairCounts :=
  tokensList.foldl (fun cts ts => updatePairs cts (pairsOf tm ts) 1) []

/-- `PairTokenizer::new` (src/tokenize.rs lines 116-230). -/
def PairTokenizer.new (strings : List Str) : PairTokenizer :=
  let it := initialTokens strings
  if it.1.isEmpty then ⟨it.2, []⟩
  else
    let res := mergeLoop (mergeMinFreq strings.length) ((it.1.map List.length).sum + 1)
      it.2 it.1 (seedCounts it.2 it.1) []
    ⟨res.1, res.2⟩

/-- `PairTokenizer::tokenize` (src/tokenize.rs lines 235-250): character
tokens (unknown for unseen characters), then each learned merge replayed
in order, the rewritten sequence kept when a replacement occurred. -/
def PairTokenizer.tokenize (pt : PairTokenizer) (s : Str) : List Token :=
  pt.merges.foldl (fun ts pm =>
    let r := replacePair pm.1.1 pm.1.2 pm.2 ts
    if r.length ≠ ts.length then r else ts) (Tokens.fromStrOrUnknown pt.token_map s)

theorem foldl_tupMax_mem (rest : List (Pair × Int)) :
    ∀ acc : Int × Pair,
      rest.foldl (fun acc e => if tupLe acc (e.2, e.1) then (e.2, e.1) else acc) acc = acc ∨
      (((rest.foldl (fun acc e => if tupLe acc (e.2, e.1) then (e.2, e.1) else acc) acc).2,
        (rest.foldl (fun acc e => if tupLe acc (e.2, e.1) then (e.2, e.1) else acc) acc).1)
        ∈ rest) := by
  induction rest with
  | nil => intro acc; exact Or.inl rfl
  | cons e t ih =>
    intro acc
    rw [List.foldl_cons]
    rcases ih (if tupLe acc (e.2, e.1) then (e.2, e.1) else acc) with h | h
    · rw [h]
      by_cases hle : tupLe acc (e.2, e.1)
      · rw [if_pos hle]
        exact Or.inr (List.mem_cons_self e t)
      · rw [if_neg hle]
        exact Or.inl rfl
    · exact Or.inr (List.mem_cons_of_mem e h)

theorem countsMax_mem (counts : PairCounts) (c : Int) (p : Pair)
    (h : countsMax counts = some (c, p)) : (p, c) ∈ counts := by
  cases counts with
  | nil => cases h
  | cons e rest =>
    obtain ⟨q, d⟩ := e
    rw [countsMax] at h
    have h' : rest.foldl (fun acc e => if tupLe acc (e.2, e.1) then (e.2, e.1) else acc) (d, q)
        = (c, p) := Option.some.inj h
    rcases foldl_tupMax_mem rest (d, q) with hf | hf
    · rw [h'] at hf
      cases hf
      exact List.mem_cons_self _ _
    · rw [h'] at hf
      exact List.mem_cons_of_mem _ hf

theorem mergeLoop_stop (minFreq : Int) (fuel : Nat) (tm : TokenMap) (strs : List (List Token))
    (counts : PairCounts) (ms : List (Pair × Token))
    (h : ∀ e ∈ counts, e.2 < minFreq) :
    mergeLoop minFreq fuel tm strs counts ms = (tm, ms) := by
  cases fuel with
  | zero => rfl
  | succ n =>
    rw [mergeLoop]
    cases hmax : countsMax counts with
    | none => rfl
    | some cp =>
      obtain ⟨c, p⟩ := cp
      have hmem := countsMax_mem counts c p hmax
      have hlt : c < minFreq := h (p, c) hmem
      show (if c < minFreq then (tm, ms) else _) = (tm, ms)
      rw [if_pos hlt]

/-- Claim C2 (counterexample): the single-string corpus `["aaa"]` trains a
merge — its repeated adjacent pair `(a, a)` is seeded with count 2, which
meets the threshold `min_freq = 2`, so the merge log is not empty. -/
theorem claim_C2_counterexample :
    (PairTokenizer.new [['a', 'a', 'a']]).merges ≠ [] := by
  decide

/-- Claim C2 (amended): for a training corpus of exactly one string the
merge frequency threshold evaluates to 2, and the tokenizer trains no
merges provided no adjacent pair of non-special tokens occurs twice in
that string (i.e. every seeded pair count is below 2); a single string
with a repeated adjacent pair does train a merge. -/
theorem claim_C2_amended (s : Str)
    (h : ∀ e ∈ seedCounts (initialTokens [s]).2 (initialTokens [s]).1, e.2 < 2) :
    mergeMinFreq 1 = 2 ∧ (PairTokenizer.new [s]).merges = [] := by
  refine ⟨by decide, ?_⟩
  have hstop := mergeLoop_stop (mergeMinFreq 1) (((initialTokens [s]).1.map List.length).sum + 1)
    (initialTokens [s]).2 (initialTokens [s]).1
    (seedCounts (initialTokens [s]).2 (initialTokens [s]).1) []
    (fun e he => by
      have h2 : mergeMinFreq 1 = 2 := by decide
      rw [h2]
      exact h e he)
  have hnew : PairTokenizer.new [s]
      = ⟨(mergeLoop (mergeMinFreq 1) (((initialTokens [s]).1.map List.length).sum + 1)
            (initialTokens [s]).2 (initialTokens [s]).1
            (seedCounts (initialTokens [s]).2 (initialTokens [s]).1) []).1,
         (mergeLoop (mergeMinFreq 1) (((initialTokens [s]).1.map List.length).sum + 1)
            (initialTokens [s]).2 (initialTokens [s]).1
            (seedCounts (initialTokens [s]).2 (initialTokens [s]).1) []).2⟩ := rfl
  rw [hnew, hstop]

/-- Witness for claim C2's amended theorem at the concrete corpus
`["ab"]`, whose only adjacent pair occurs once. -/
theorem claim_C2_witness :
    (∀ e ∈ seedCounts (initialTokens [['a', 'b']]).2 (initialTokens [['a', 'b']]).1, e.2 < 2) ∧
    (mergeMinFreq 1 = 2 ∧ (PairTokenizer.new [['a', 'b']]).merges = []) :=
  ⟨by decide, claim_C2_amended ['a', 'b'] (by decide)⟩

/-! ### Losslessness of the trained tokenizer (claim C4) -/

theorem findIdxSome_getD (s : Str) : ∀ (l : List Str) (i : Nat),
    l.findIdx? (· = s) = some i → i < l.length ∧ l.getD i [] = s := by
  intro l
  induction l with
  | nil => intro i h; cases h
  | cons a t ih =>
    intro i h
    rw [List.findIdx?_cons] at h
    by_cases ha : a = s
    · rw [if_pos (by simpa using ha)] at h
      cases h
      exact ⟨by simp, ha⟩
    · rw [if_neg (by simpa using ha), List.findIdx?_succ] at h
      obtain ⟨j, hj, rfl⟩ := Option.map_eq_some'.mp h
      obtain ⟨hlt, hget⟩ := ih j hj
      exact ⟨by simpa using Nat.succ_lt_succ hlt, by simpa using hget⟩

theorem findIdx_of_mem (s : Str) : ∀ l : List Str, s ∈ l →
    ∃ i, l.findIdx? (· = s) = some i := by
  intro l
  induction l with
  | nil => intro h; cases h
  | cons a t ih =>
    intro h
    rw [List.findIdx?_cons]
    by_cases ha : a = s
    · exact ⟨0, by rw [if_pos (by simpa using ha)]⟩
    · have hst : s ∈ t := by
        rcases List.mem_cons.mp h with rfl | hm
        · exact absurd rfl ha
        · exact hm
      obtain ⟨j, hj⟩ := ih hst
      refine ⟨j + 1, ?_⟩
      rw [if_neg (by simpa using ha), List.findIdx?_succ, hj]
      rfl

theorem findIdx_append_some (s : Str) : ∀ (l u : List Str) (i : Nat),
    l.findIdx? (· = s) = some i → (l ++ u).findIdx? (· = s) = some i := by
  intro l
  induction l with
  | nil => intro u i h; cases h
  | cons a t ih =>
    intro u i h
    rw [List.findIdx?_cons] at h
    rw [List.cons_append, List.findIdx?_cons]
    by_cases ha : a = s
    · rwa [if_pos (by simpa using ha)] at h ⊢
    · rw [if_neg (by simpa using ha)] at h ⊢
      rw [List.findIdx?_succ] at h ⊢
      obtain ⟨j, hj, rfl⟩ := Option.map_eq_some'.mp h
      rw [ih u j hj]
      rfl

/-- One token map extends another: same specials, vocabulary grown only by
appending. Every operation of training preserves this. -/
def mapExt (m m' : TokenMap) : Prop :=
  m'.lastSpecial = m.lastSpecial ∧ ∃ u, m'.strs = m.strs ++ u

theorem mapExt_refl (m : TokenMap) : mapExt m m := ⟨rfl, [], by simp⟩

theorem mapExt_trans {m1 m2 m3 : TokenMap} (h1 : mapExt m1 m2) (h2 : mapExt m2 m3) :
    mapExt m1 m3 := by
  obtain ⟨hs1, u1, hu1⟩ := h1
  obtain ⟨hs2, u2, hu2⟩ := h2
  exact ⟨hs2.trans hs1, u1 ++ u2, by rw [hu2, hu1, List.append_assoc]⟩

theorem mapExt_length {m m' : TokenMap} (h : mapExt m m') :
    m.strs.length ≤ m'.strs.length := by
  obtain ⟨-, u, hu⟩ := h
  rw [hu, List.length_append]
  omega

theorem mapExt_strOf {m m' : TokenMap} (h : mapExt m m') (t : Token)
    (ht : t < m.strs.length) : m'.strOf t = m.strOf t := by
  obtain ⟨-, u, hu⟩ := h
  rw [TokenMap.strOf, TokenMap.strOf, hu, List.getD_append _ _ _ _ ht]

theorem mapExt_mem {m m' : TokenMap} (h : mapExt m m') (s : Str) (hs : s ∈ m.strs) :
    s ∈ m'.strs := by
  obtain ⟨-, u, hu⟩ := h
  rw [hu]
  exact List.mem_append_left u hs

theorem mapExt_lookup {m m' : TokenMap} (h : mapExt m m') (s : Str) (i : Nat)
    (hl : m.lookup s = some i) : m'.lookup s = some i := by
  obtain ⟨-, u, hu⟩ := h
  rw [TokenMap.lookup, hu]
  exact findIdx_append_some s m.strs u i hl

theorem lookup_strOf {m : TokenMap} {s : Str} {i : Nat} (h : m.lookup s = some i) :
    i < m.strs.length ∧ m.strOf i = s := by
  obtain ⟨hlt, hget⟩ := findIdxSome_getD s m.strs i h
  exact ⟨hlt, hget⟩

theorem getOrCreate_ext (m : TokenMap) (s : Str) : mapExt m (m.getOrCreate s).2 := by
  rw [TokenMap.getOrCreate]
  cases m.lookup s with
  | none => exact ⟨rfl, [s], rfl⟩
  | some i => exact mapExt_refl m

theorem getOrCreate_mem (m : TokenMap) (s : Str) : s ∈ (m.getOrCreate s).2.strs := by
  rw [TokenMap.getOrCreate]
  cases hl : m.lookup s with
  | none => simp
  | some i =>
    obtain ⟨hlt, hget⟩ := lookup_strOf hl
    rw [TokenMap.strOf, List.getD_eq_getElem?_getD, List.getElem?_eq_getElem hlt] at hget
    simp only [Option.getD_some] at hget
    exact hget ▸ List.getElem_mem hlt

theorem getOrCreate_lt (m : TokenMap) (s : Str) :
    (m.getOrCreate s).1 < (m.getOrCreate s).2.strs.length := by
  rw [TokenMap.getOrCreate]
  cases hl : m.lookup s with
  | none => simp
  | some i => exact (lookup_strOf hl).1

theorem fromStrAndCreate_ext : ∀ (s : Str) (m : TokenMap),
    mapExt m (Tokens.fromStrAndCreate s m).2 := by
  intro s
  induction s with
  | nil => intro m; exact mapExt_refl m
  | cons c cs ih =>
    intro m
    exact mapExt_trans (getOrCreate_ext m [c]) (ih (m.getOrCreate [c]).2)

theorem fromStrAndCreate_bound : ∀ (s : Str) (m : TokenMap),
    ∀ t ∈ (Tokens.fromStrAndCreate s m).1, t < (Tokens.fromStrAndCreate s m).2.strs.length := by
  intro s
  induction s with
  | nil => intro m t ht; cases ht
  | cons c cs ih =>
    intro m t ht
    rw [Tokens.fromStrAndCreate] at ht ⊢
    rcases List.mem_cons.mp ht with rfl | ht
    · exact lt_of_lt_of_le (getOrCreate_lt m [c])
        (mapExt_length (fromStrAndCreate_ext cs (m.getOrCreate [c]).2))
    · exact ih (m.getOrCreate [c]).2 t ht

theorem fromStrAndCreate_chars : ∀ (s : Str) (m : TokenMap),
    ∀ c ∈ s, [c] ∈ (Tokens.fromStrAndCreate s m).2.strs := by
  intro s
  induction s with
  | nil => intro m c hc; cases hc
  | cons c0 cs ih =>
    intro m c hc
    rw [Tokens.fromStrAndCreate]
    rcases List.mem_cons.mp hc with rfl | hc
    · exact mapExt_mem (fromStrAndCreate_ext cs (m.getOrCreate [c]).2) [c]
        (getOrCreate_mem m [c])
    · exact ih (m.getOrCreate [c0]).2 c hc

theorem initialTokens_fold (strings : List Str) :
    ∀ acc : List (List Token) × TokenMap,
      mapExt acc.2 (strings.foldl initStep acc).2 ∧
      (∀ s ∈ strings, ∀ c ∈ s, [c] ∈ (strings.foldl initStep acc).2.strs) ∧
      ((∀ ts ∈ acc.1, ∀ t ∈ ts, t < acc.2.strs.length) →
        ∀ ts ∈ (strings.foldl initStep acc).1, ∀ t ∈ ts,
          t < (strings.foldl initStep acc).2.strs.length) ∧
      (strings.foldl initStep acc).1.length = acc.1.length + strings.length := by
  induction strings with
  | nil =>
    intro acc
    exact ⟨mapExt_refl _, fun s hs => absurd hs (List.not_mem_nil s), fun h => h, by simp⟩
  | cons s0 rest ih =>
    intro acc
    rw [List.foldl_cons]
    obtain ⟨ihext, ihchars, ihbound, ihlen⟩ := ih (initStep acc s0)
    have hstepext : mapExt acc.2 (initStep acc s0).2 := fromStrAndCreate_ext s0 acc.2
    refine ⟨mapExt_trans hstepext ihext, ?_, ?_, ?_⟩
    · intro s hs c hc
      rcases List.mem_cons.mp hs with rfl | hs
      · exact mapExt_mem ihext [c] (fromStrAndCreate_chars s acc.2 c hc)
      · exact ihchars s hs c hc
    · intro hacc
      apply ihbound
      intro ts hts t ht
      rcases List.mem_append.mp hts with hts | hts
      · exact lt_of_lt_of_le (hacc ts hts t ht) (mapExt_length hstepext)
      · simp only [List.mem_singleton] at hts
        subst hts
        exact fromStrAndCreate_bound s0 acc.2 t ht
    · rw [ihlen]
      simp [initStep]
      omega

theorem replacePair_short (a b c : Token) (l : List Token)
    (h : ∀ (t1 t2 : Token) (rest : List Token), l = t1 :: t2 :: rest → False) :
    replacePair a b c l = l := by
  cases l with
  | nil => rfl
  | cons x xs =>
    cases xs with
    | nil => rfl
    | cons y ys => exact absurd rfl (h x y ys)

theorem replacePair_mem (a b c : Token) (ts : List Token) :
    ∀ t ∈ replacePair a b c ts, t ∈ ts ∨ t = c := by
  induction ts using replacePair.induct a b c with
  | case1 t1 t2 rest hcond ih =>
    intro t ht
    rw [replacePair, if_pos hcond] at ht
    rcases List.mem_cons.mp ht with rfl | ht
    · exact Or.inr rfl
    · rcases ih t ht with h | h
      · exact Or.inl (List.mem_cons_of_mem _ (List.mem_cons_of_mem _ h))
      · exact Or.inr h
  | case2 t1 t2 rest hcond ih =>
    intro t ht
    rw [replacePair, if_neg hcond] at ht
    rcases List.mem_cons.mp ht with rfl | ht
    · exact Or.inl (List.mem_cons_self _ _)
    · rcases ih t ht with h | h
      · exact Or.inl (List.mem_cons_of_mem _ h)
      · exact Or.inr h
  | case3 l h1 =>
    intro t ht
    rw [replacePair_short a b c l h1] at ht
    exact Or.inl ht

theorem mem_pairsOf (m : TokenMap) (ts : List Token) (p : Pair) (h : p ∈ pairsOf m ts) :
    p.1 ∈ ts ∧ p.2 ∈ ts := by
  rw [pairsOf] at h
  have hz := List.mem_filter.mp h |>.1
  obtain ⟨h1, h2⟩ := List.of_mem_zip (show (p.1, p.2) ∈ ts.zip ts.tail from hz)
  exact ⟨h1, (List.tail_sublist ts).mem h2⟩

theorem updatePair_keys (P : Pair → Prop) :
    ∀ (cts : PairCounts) (p : Pair) (δ : Int), (∀ e ∈ cts, P e.1) → P p →
      ∀ e ∈ updatePair cts p δ, P e.1 := by
  intro cts
  induction cts with
  | nil =>
    intro p δ _ hp e he
    rw [updatePair] at he
    simp only [List.mem_singleton] at he
    rw [he]
    exact hp
  | cons qc rest ih =>
    intro p δ h hp e he
    obtain ⟨q, c⟩ := qc
    rw [updatePair] at he
    by_cases hq : q = p
    · rw [if_pos hq] at he
      by_cases hz : c + δ = 0
      · rw [if_pos hz] at he
        exact h e (List.mem_cons_of_mem _ he)
      · rw [if_neg hz] at he
        rcases List.mem_cons.mp he with rfl | he
        · exact h (q, c) (List.mem_cons_self _ _)
        · exact h e (List.mem_cons_of_mem _ he)
    · rw [if_neg hq] at he
      rcases List.mem_cons.mp he with rfl | he
      · exact h (q, c) (List.mem_cons_self _ _)
      · exact ih p δ (fun x hx => h x (List.mem_cons_of_mem _ hx)) hp e he

theorem updatePairs_keys (P : Pair → Prop) :
    ∀ (ps : List Pair) (cts : PairCounts) (δ : Int), (∀ e ∈ cts, P e.1) →
      (∀ p ∈ ps, P p) → ∀ e ∈ updatePairs cts ps δ, P e.1 := by
  intro ps
  induction ps with
  | nil => intro cts δ h _ e he; exact h e he
  | cons p rest ih =>
    intro cts δ h hps e he
    rw [updatePairs, List.foldl_cons] at he
    exact ih (updatePair cts p δ) δ
      (updatePair_keys P cts p δ h (hps p (List.mem_cons_self _ _)))
      (fun q hq => hps q (List.mem_cons_of_mem _ hq)) e he

theorem tokensToString_acc (m : TokenMap) :
    ∀ (ts : List Token) (acc : Str),
      ts.foldl (fun acc t => acc ++ m.strOf t) acc = acc ++ (ts.map m.strOf).flatten := by
  intro ts
  induction ts with
  | nil => intro acc; simp
  | cons t rest ih =>
    intro acc
    rw [List.foldl_cons, ih]
    simp

theorem tokensToString_eq_flatten (m : TokenMap) (ts : List Token) :
    tokensToString m ts = (ts.map m.strOf).flatten := by
  rw [tokensToString, tokensToString_acc]
  simp

theorem replacePair_flatten (m : TokenMap) (a b c : Token)
    (hc : m.strOf c = m.strOf a ++ m.strOf b) (ts : List Token) :
    ((replacePair a b c ts).map m.strOf).flatten = (ts.map m.strOf).flatten := by
  induction ts using replacePair.induct a b c with
  | case1 t1 t2 rest hcond ih =>
    obtain ⟨rfl, rfl⟩ := hcond
    rw [replacePair, if_pos ⟨rfl, rfl⟩]
    simp only [List.map_cons, List.flatten_cons]
    rw [ih, hc, List.append_assoc]
  | case2 t1 t2 rest hcond ih =>
    rw [replacePair, if_neg hcond]
    simp only [List.map_cons, List.flatten_cons] at *
    rw [ih]
  | case3 l h1 =>
    rw [replacePair_short a b c l h1]

/-- All tokens of every sequence are inside the current vocabulary. -/
def strsBound (tm : TokenMap) (strs : List (List Token)) : Prop :=
  ∀ ts ∈ strs, ∀ t ∈ ts, t < tm.strs.length

/-- All pairs recorded in the counts are inside the current vocabulary. -/
def countsBound (tm : TokenMap) (counts : PairCounts) : Prop :=
  ∀ e ∈ counts, e.1.1 < tm.strs.length ∧ e.1.2 < tm.strs.length

/-- Every recorded merge is well-formed with respect to a vocabulary: its
tokens exist and the merged token's string is the concatenation of the
pair's strings. -/
def mergesOK (tm : TokenMap) (ms : List (Pair × Token)) : Prop :=
  ∀ pm ∈ ms, pm.2 < tm.strs.length ∧ pm.1.1 < tm.strs.length ∧ pm.1.2 < tm.strs.length ∧
    tm.strOf pm.2 = tm.strOf pm.1.1 ++ tm.strOf pm.1.2

theorem mergesOK_mapExt {tm tm' : TokenMap} (h : mapExt tm tm') {ms : List (Pair × Token)}
    (hms : mergesOK tm ms) : mergesOK tm' ms := by
  intro pm hpm
  obtain ⟨h1, h2, h3, h4⟩ := hms pm hpm
  refine ⟨lt_of_lt_of_le h1 (mapExt_length h), lt_of_lt_of_le h2 (mapExt_length h),
    lt_of_lt_of_le h3 (mapExt_length h), ?_⟩
  rw [mapExt_strOf h _ h1, mapExt_strOf h _ h2, mapExt_strOf h _ h3, h4]

theorem seedCounts_bound (tm : TokenMap) (tl : List (List Token))
    (h : strsBound tm tl) : countsBound tm (seedCounts tm tl) := by
  rw [seedCounts]
  suffices hgen : ∀ (l : List (List Token)) (acc : PairCounts), countsBound tm acc →
      (∀ ts ∈ l, ∀ t ∈ ts, t < tm.strs.length) →
      countsBound tm (l.foldl (fun cts ts => updatePairs cts (pairsOf tm ts) 1) acc) from
    hgen tl [] (fun e he => absurd he (List.not_mem_nil e)) h
  intro l
  induction l with
  | nil => intro acc hacc _; exact hacc
  | cons ts rest ih =>
    intro acc hacc hl
    rw [List.foldl_cons]
    apply ih
    · exact updatePairs_keys (fun p => p.1 < tm.strs.length ∧ p.2 < tm.strs.length)
        (pairsOf tm ts) acc 1 hacc
        (fun p hp => by
          obtain ⟨h1, h2⟩ := mem_pairsOf tm ts p hp
          exact ⟨hl ts (List.mem_cons_self _ _) _ h1, hl ts (List.mem_cons_self _ _) _ h2⟩)
    · intro ts' hts'
      exact hl ts' (List.mem_cons_of_mem _ hts')

theorem mergeRewrite_inv (tm : TokenMap) (a b merged : Token) (hm : merged < tm.strs.length) :
    ∀ (strs : List (List Token)) (acc : List (List Token) × PairCounts),
      strsBound tm acc.1 → countsBound tm acc.2 → strsBound tm strs →
      strsBound tm (strs.foldl (fun acc s =>
        let r := replacePair a b merged s
        if r.length ≠ s.length then
          (acc.1 ++ [r], updatePairs (updatePairs acc.2 (pairsOf tm s) (-1)) (pairsOf tm r) 1)
        else (acc.1 ++ [s], acc.2)) acc).1 ∧
      countsBound tm (strs.foldl (fun acc s =>
        let r := replacePair a b merged s
        if r.length ≠ s.length then
          (acc.1 ++ [r], updatePairs (updatePairs acc.2 (pairsOf tm s) (-1)) (pairsOf tm r) 1)
        else (acc.1 ++ [s], acc.2)) acc).2 := by
  intro strs
  induction strs with
  | nil => intro acc h1 h2 _; exact ⟨h1, h2⟩
  | cons s rest ih =>
    intro acc h1 h2 h3
    rw [List.foldl_cons]
    have hsbound : ∀ t ∈ s, t < tm.strs.length := h3 s (List.mem_cons_self _ _)
    have hrbound : ∀ t ∈ replacePair a b merged s, t < tm.strs.length := by
      intro t ht
      rcases replacePair_mem a b merged s t ht with h | rfl
      · exact hsbound t h
      · exact hm
    have hrest : strsBound tm rest := fun ts hts => h3 ts (List.mem_cons_of_mem _ hts)
    by_cases hlen : (replacePair a b merged s).length ≠ s.length
    · rw [if_pos hlen]
      apply ih
      · intro ts hts t ht
        rcases List.mem_append.mp hts with hts | hts
        · exact h1 ts hts t ht
        · simp only [List.mem_singleton] at hts
          subst hts
          exact hrbound t ht
      · intro e he
        refine updatePairs_keys (fun p => p.1 < tm.strs.length ∧ p.2 < tm.strs.length) _ _ _
          (updatePairs_keys (fun p => p.1 < tm.strs.length ∧ p.2 < tm.strs.length) _ _ _ h2
            (fun p hp => by
              obtain ⟨hp1, hp2⟩ := mem_pairsOf tm s p hp
              exact ⟨hsbound _ hp1, hsbound _ hp2⟩))
          (fun p hp => by
            obtain ⟨hp1, hp2⟩ := mem_pairsOf tm (replacePair a b merged s) p hp
            exact ⟨hrbound _ hp1, hrbound _ hp2⟩) e he
      · exact hrest
    · rw [if_neg hlen]
      apply ih
      · intro ts hts t ht
        rcases List.mem_append.mp hts with hts | hts
        · exact h1 ts hts t ht
        · simp only [List.mem_singleton] at hts
          subst hts
          exact hsbound t ht
      · exact h2
      · exact hrest

theorem mergeLoop_inv (minFreq : Int) :
    ∀ (fuel : Nat) (tm : TokenMap) (strs : List (List Token)) (counts : PairCounts)
      (ms : List (Pair × Token)),
      countsBound tm counts → strsBound tm strs → mergesOK tm ms →
      mapExt tm (mergeLoop minFreq fuel tm strs counts ms).1 ∧
      mergesOK (mergeLoop minFreq fuel tm strs counts ms).1
        (mergeLoop minFreq fuel tm strs counts ms).2 := by
  intro fuel
  induction fuel with
  | zero =>
    intro tm strs counts ms _ _ hms
    exact ⟨mapExt_refl tm, hms⟩
  | succ n ih =>
    intro tm strs counts ms hcounts hstrs hms
    cases hmax : countsMax counts with
    | none =>
      have heq : mergeLoop minFreq (n + 1) tm strs counts ms = (tm, ms) := by
        rw [mergeLoop, hmax]
      rw [heq]
      exact ⟨mapExt_refl tm, hms⟩
    | some cp =>
      obtain ⟨c, p⟩ := cp
      by_cases hlt : c < minFreq
      · have heq : mergeLoop minFreq (n + 1) tm strs counts ms = (tm, ms) := by
          rw [mergeLoop, hmax]
          show (if c < minFreq then (tm, ms) else _) = (tm, ms)
          rw [if_pos hlt]
        rw [heq]
        exact ⟨mapExt_refl tm, hms⟩
      · have heq : mergeLoop minFreq (n + 1) tm strs counts ms
            = mergeLoop minFreq n (tm.merge p).2
                (mergeRewrite (tm.merge p).2 p.1 p.2 (tm.merge p).1 strs counts).1
                (mergeRewrite (tm.merge p).2 p.1 p.2 (tm.merge p).1 strs counts).2
                (ms ++ [(p, (tm.merge p).1)]) := by
          rw [mergeLoop, hmax]
          show (if c < minFreq then (tm, ms) else _) = _
          rw [if_neg hlt]
        rw [heq]
        obtain ⟨hp1, hp2⟩ := hcounts (p, c) (countsMax_mem counts c p hmax)
        have hext : mapExt tm (tm.merge p).2 := ⟨rfl, [tm.strOf p.1 ++ tm.strOf p.2], rfl⟩
        have hmerged_lt : (tm.merge p).1 < (tm.merge p).2.strs.length := by
          simp [TokenMap.merge]
        have hstrs' : strsBound (tm.merge p).2 strs := fun ts hts t ht =>
          lt_of_lt_of_le (hstrs ts hts t ht) (mapExt_length hext)
        have hcounts' : countsBound (tm.merge p).2 counts := fun e he =>
          ⟨lt_of_lt_of_le (hcounts e he).1 (mapExt_length hext),
           lt_of_lt_of_le (hcounts e he).2 (mapExt_length hext)⟩
        have hrw : mergeRewrite (tm.merge p).2 p.1 p.2 (tm.merge p).1 strs counts
            = strs.foldl (fun acc s =>
                let r := replacePair p.1 p.2 (tm.merge p).1 s
                if r.length ≠ s.length then
                  (acc.1 ++ [r], updatePairs (updatePairs acc.2 (pairsOf (tm.merge p).2 s) (-1))
                    (pairsOf (tm.merge p).2 r) 1)
                else (acc.1 ++ [s], acc.2)) ([], counts) := rfl
        obtain ⟨hb1, hb2⟩ := mergeRewrite_inv (tm.merge p).2 p.1 p.2 (tm.merge p).1 hmerged_lt
          strs ([], counts) (fun ts hts => absurd hts (List.not_mem_nil ts)) hcounts' hstrs'
        rw [← hrw] at hb1 hb2
        have hnewok : mergesOK (tm.merge p).2 (ms ++ [(p, (tm.merge p).1)]) := by
          intro pm hpm
          rcases List.mem_append.mp hpm with hpm | hpm
          · exact mergesOK_mapExt hext hms pm hpm
          · simp only [List.mem_singleton] at hpm
            subst hpm
            refine ⟨hmerged_lt, lt_of_lt_of_le hp1 (mapExt_length hext),
              lt_of_lt_of_le hp2 (mapExt_length hext), ?_⟩
            have hx : (tm.merge p).2.strOf (tm.merge p).1 = tm.strOf p.1 ++ tm.strOf p.2 := by
              show (tm.strs ++ [tm.strOf p.1 ++ tm.strOf p.2]).getD tm.strs.length [] = _
              rw [List.getD_append_right _ _ _ _ (le_refl tm.strs.length), Nat.sub_self]
              rfl
            rw [hx, mapExt_strOf hext p.1 hp1, mapExt_strOf hext p.2 hp2]
        obtain ⟨hext2, hok⟩ := ih (tm.merge p).2 _ _ _ hb2 hb1 hnewok
        exact ⟨mapExt_trans hext hext2, hok⟩

theorem flatten_map_singleton (s : Str) : (s.map (fun c => [c])).flatten = s := by
  induction s with
  | nil => rfl
  | cons c cs ih => simp [ih]

theorem tokensToString_fromStrOrUnknown (m : TokenMap) (s : Str)
    (h : ∀ c ∈ s, [c] ∈ m.strs) :
    tokensToString m (Tokens.fromStrOrUnknown m s) = s := by
  rw [tokensToString_eq_flatten, Tokens.fromStrOrUnknown, List.map_map]
  have hmap : s.map (m.strOf ∘ fun c => (m.lookup [c]).getD 0) = s.map (fun c => [c]) := by
    apply List.map_congr_left
    intro c hc
    obtain ⟨i, hi⟩ := findIdx_of_mem [c] m.strs (h c hc)
    have hl : m.lookup [c] = some i := hi
    rw [Function.comp_apply, hl, Option.getD_some]
    exact (lookup_strOf hl).2
  rw [hmap, flatten_map_singleton]

theorem foldl_replace_concat (m : TokenMap) :
    ∀ (ms : List (Pair × Token)) (ts : List Token),
      (∀ pm ∈ ms, m.strOf pm.2 = m.strOf pm.1.1 ++ m.strOf pm.1.2) →
      tokensToString m (ms.foldl (fun ts pm =>
        let r := replacePair pm.1.1 pm.1.2 pm.2 ts
        if r.length ≠ ts.length then r else ts) ts) = tokensToString m ts := by
  intro ms
  induction ms with
  | nil => intro ts _; rfl
  | cons pm rest ih =>
    intro ts hok
    rw [List.foldl_cons]
    have hstep : tokensToString m
        (if (replacePair pm.1.1 pm.1.2 pm.2 ts).length ≠ ts.length then
          replacePair pm.1.1 pm.1.2 pm.2 ts else ts) = tokensToString m ts := by
      by_cases hlen : (replacePair pm.1.1 pm.1.2 pm.2 ts).length ≠ ts.length
      · rw [if_pos hlen, tokensToString_eq_flatten, tokensToString_eq_flatten]
        exact replacePair_flatten m pm.1.1 pm.1.2 pm.2
          (hok pm (List.mem_cons_self _ _)) ts
      · rw [if_neg hlen]
    rw [ih _ (fun q hq => hok q (List.mem_cons_of_mem _ hq)), hstep]

/-- Claim C4: for every tokenizer trained on a corpus and every string of
the corpus, concatenating the string forms of `tokenize`'s output
reproduces the string exactly — every learned merge token's string is the
concatenation of its pair, and replaying the merge log preserves
character-level content. -/
theorem claim_C4 (strings : List Str) (s : Str) (hs : s ∈ strings) :
    tokensToString (PairTokenizer.new strings).token_map
      ((PairTokenizer.new strings).tokenize s) = s := by
  obtain ⟨hext0, hchars, hboundf, hlen⟩ :=
    initialTokens_fold strings ([], TokenMap.new [' ', '/'])
  have hIT : initialTokens strings = strings.foldl initStep ([], TokenMap.new [' ', '/']) := rfl
  rw [← hIT] at hext0 hchars hboundf hlen
  have hboundinit : strsBound (initialTokens strings).2 (initialTokens strings).1 := by
    apply hboundf
    intro ts hts
    cases hts
  have hne : (initialTokens strings).1.isEmpty = false := by
    have hl : (initialTokens strings).1.length = strings.length := by simpa using hlen
    cases hl2 : (initialTokens strings).1 with
    | nil =>
      rw [hl2] at hl
      have := List.length_pos.mpr (List.ne_nil_of_mem hs)
      simp at hl
      omega
    | cons a t => rfl
  have hseed : countsBound (initialTokens strings).2
      (seedCounts (initialTokens strings).2 (initialTokens strings).1) :=
    seedCounts_bound _ _ hboundinit
  have hnew : PairTokenizer.new strings
      = ⟨(mergeLoop (mergeMinFreq strings.length) (((initialTokens strings).1.map List.length).sum + 1)
            (initialTokens strings).2 (initialTokens strings).1
            (seedCounts (initialTokens strings).2 (initialTokens strings).1) []).1,
         (mergeLoop (mergeMinFreq strings.length) (((initialTokens strings).1.map List.length).sum + 1)
            (initialTokens strings).2 (initialTokens strings).1
            (seedCounts (initialTokens strings).2 (initialTokens strings).1) []).2⟩ := by
    rw [PairTokenizer.new]
    simp only [hne, Bool.false_eq_true, if_false]
  obtain ⟨hextF, hmsF⟩ := mergeLoop_inv (mergeMinFreq strings.length)
    (((initialTokens strings).1.map List.length).sum + 1)
    (initialTokens strings).2 (initialTokens strings).1
    (seedCounts (initialTokens strings).2 (initialTokens strings).1) []
    hseed hboundinit (fun pm hpm => absurd hpm (List.not_mem_nil pm))
  rw [hnew, PairTokenizer.tokenize]
  rw [foldl_replace_concat _ _ _ (fun pm hpm => (hmsF pm hpm).2.2.2)]
  apply tokensToString_fromStrOrUnknown
  intro c hc
  exact mapExt_mem hextF [c] (hchars s hs c hc)

/-- Witness for claim C4 at the concrete corpus `["aaa", "aaa"]` (which
trains the merge `aa`) and its member string `"aaa"`. -/
theorem claim_C4_witness :
    (['a', 'a', 'a'] ∈ [['a', 'a', 'a'], ['a', 'a', 'a']]) ∧
    tokensToString (PairTokenizer.new [['a', 'a', 'a'], ['a', 'a', 'a']]).token_map
      ((PairTokenizer.new [['a', 'a', 'a'], ['a', 'a', 'a']]).tokenize ['a', 'a', 'a'])
      = ['a', 'a', 'a'] :=
  ⟨by decide, claim_C4 [['a', 'a', 'a'], ['a', 'a', 'a']] ['a', 'a', 'a'] (by decide)⟩

/-! ### N-gram generation and the Build pipeline wiring (src/ngrams.rs,
src/main.rs `Build::generate_ngrams` / `Build::train_naive_bayes_classifier`) -/

/-- Modelled from the spec (§4.3): the n-gram hash is "any fixed 64-bit
non-cryptographic hash applied to the ordered token-id sequence"
(`DefaultHasher` is external to the sources); an FNV-style fold stands in
for it, with the 64-bit reduction made explicit. -/
def ngramHash (tokens : List Token) : Ngram :=
  tokens.foldl (fun h t => (h * 1099511628211 + t + 1) % 2 ^ 64) 14695981039346656037

/-- `slice.windows(n)`: all contiguous windows of length `n`. -/
def slidingWindows (n : Nat) (l : List Token) : List (List Token) :=
  (List.range (l.length + 1 - n)).map (fun i => (l.drop i).take n)

/-- `Vec::dedup`: collapse runs of adjacent equal elements. -/
def dedupAdjacent : List Ngram → List Ngram
  | a :: b :: t => if a = b then dedupAdjacent (b :: t) else a :: dedupAdjacent (b :: t)
  | l => l

/-- `Ngrams::windows` (src/ngrams.rs lines 24-48): hash every window of
length 1..=w, drop hashes outside the allowed set when one is given, then
sort and deduplicate. -/
def Ngrams.windows (tokens : List Token) (w : Nat) (allowed : Option (Finset Ngram)) :
    List Ngram :=
  let all := (List.range' 1 w).flatMap (fun n => (slidingWindows n tokens).map ngramHash)
  let kept := match allowed with
    | none => all
    | some s => all.filter (· ∈ s)
  dedupAdjacent (kept.mergeSort (fun a b => decide (a ≤ b)))

/-- `Ngrams::count_and_filter_from_paths` (src/ngrams.rs lines 59-99):
count, per n-gram, in how many paths' deduplicated window sets it occurs
(`u8` saturating at 255 — the incremental saturating adds and the chunked
reduction both equal the saturated total), and keep the n-grams with count
above 1.  The parallel chunking is a reduction of the same per-path
counts; this is its sequential form. -/
def countAndFilterFromPaths (paths : List Str) (pt : PairTokenizer) (w : Nat) :
    Finset Ngram :=
  ((paths.flatMap (fun p => Ngrams.windows (pt.tokenize p) w none)).toFinset).filter
    (fun g => 1 < min 255 (paths.countP (fun p => g ∈ Ngrams.windows (pt.tokenize p) w none)))

/-- `Build::generate_ngrams` (src/main.rs lines 409-453): compute the
frequent n-gram set over candidate plus playlist paths, then store, for
each candidate, the frequent-filtered window set of its tokenized path. -/
def generateNgrams (pt : PairTokenizer) (w : Nat) (candidatePaths playlistPaths : List Str) :
    Finset Ngram × List (Str × List Ngram) :=
  let freq := countAndFilterFromPaths (candidatePaths ++ playlistPaths) pt w
  (freq, candidatePaths.map (fun p => (p, Ngrams.windows (pt.tokenize p) w (some freq))))

/-- `Build::train_naive_bayes_classifier` (src/main.rs lines 456-479): for
each playlist entry, tokenize its normalized path and feed the *unfiltered*
window set (`allowed = None`) to the matching training entry point. -/
def trainNaiveBayesClassifier (pt : PairTokenizer) (w : Nat)
    (playlist : List (Bool × Str)) : NaiveBayesClassifier :=
  playlist.foldl (fun nb e =>
    if e.1 then nb.train_positive (Ngrams.windows (pt.tokenize e.2) w none)
    else nb.train_negative (Ngrams.windows (pt.tokenize e.2) w none))
    (NaiveBayesClassifier.new false)

theorem dedupAdjacent_short (l : List Ngram)
    (h : ∀ (a b : Ngram) (t : List Ngram), l = a :: b :: t → False) :
    dedupAdjacent l = l := by
  cases l with
  | nil => rfl
  | cons a t =>
    cases t with
    | nil => rfl
    | cons b u => exact absurd rfl (h a b u)

theorem mem_dedupAdjacent (l : List Ngram) : ∀ x, x ∈ dedupAdjacent l ↔ x ∈ l := by
  induction l using dedupAdjacent.induct with
  | case1 b t ih =>
    intro x
    rw [show dedupAdjacent (b :: b :: t) = dedupAdjacent (b :: t) by
      rw [dedupAdjacent, if_pos rfl], ih x]
    simp only [List.mem_cons]
    tauto
  | case2 a b t hab ih =>
    intro x
    rw [show dedupAdjacent (a :: b :: t) = a :: dedupAdjacent (b :: t) by
      rw [dedupAdjacent, if_neg hab]]
    simp only [List.mem_cons, ih x]
  | case3 l h =>
    intro x
    rw [dedupAdjacent_short l h]

theorem dedupAdjacent_sorted (l : List Ngram) (h : l.Pairwise (· ≤ ·)) :
    (dedupAdjacent l).Pairwise (· < ·) := by
  induction l using dedupAdjacent.induct with
  | case1 b t ih =>
    rw [show dedupAdjacent (b :: b :: t) = dedupAdjacent (b :: t) by
      rw [dedupAdjacent, if_pos rfl]]
    exact ih (List.Pairwise.sublist (List.sublist_cons_self b (b :: t)) h)
  | case2 a b t hab ih =>
    rw [show dedupAdjacent (a :: b :: t) = a :: dedupAdjacent (b :: t) by
      rw [dedupAdjacent, if_neg hab]]
    have htail : (b :: t).Pairwise (· ≤ ·) :=
      List.Pairwise.sublist (List.sublist_cons_self a (b :: t)) h
    refine List.pairwise_cons.mpr ⟨?_, ih htail⟩
    intro x hx
    rw [mem_dedupAdjacent] at hx
    have hab' : a ≤ b := (List.pairwise_cons.mp h).1 b (List.mem_cons_self b t)
    have haltb : a < b := lt_of_le_of_ne hab' hab
    rcases List.mem_cons.mp hx with rfl | hx
    · exact haltb
    · exact lt_of_lt_of_le haltb ((List.pairwise_cons.mp htail).1 x hx)
  | case3 l hshort =>
    rw [dedupAdjacent_short l hshort]
    cases l with
    | nil => exact List.Pairwise.nil
    | cons a t =>
      cases t with
      | nil => simp
      | cons b u => exact absurd rfl (hshort a b u)

theorem strictSorted_eq_of_mem :
    ∀ (l1 l2 : List Ngram), l1.Pairwise (· < ·) → l2.Pairwise (· < ·) →
      (∀ x, x ∈ l1 ↔ x ∈ l2) → l1 = l2 := by
  intro l1
  induction l1 with
  | nil =>
    intro l2 _ _ hmem
    cases l2 with
    | nil => rfl
    | cons b t2 => exact absurd ((hmem b).mpr (List.mem_cons_self b t2)) (List.not_mem_nil b)
  | cons a t1 ih =>
    intro l2 h1 h2 hmem
    cases l2 with
    | nil => exact absurd ((hmem a).mp (List.mem_cons_self a t1)) (List.not_mem_nil a)
    | cons b t2 =>
      have hab : a = b := by
        rcases List.mem_cons.mp ((hmem a).mp (List.mem_cons_self a t1)) with h | ha
        · exact h
        · rcases List.mem_cons.mp ((hmem b).mpr (List.mem_cons_self b t2)) with h | hb
          · exact h.symm
          · have h1' := (List.pairwise_cons.mp h1).1 b hb
            have h2' := (List.pairwise_cons.mp h2).1 a ha
            exact absurd h2' (lt_asymm h1')
      subst hab
      congr 1
      apply ih t2 (List.pairwise_cons.mp h1).2 (List.pairwise_cons.mp h2).2
      intro x
      constructor
      · intro hx
        have hax : a < x := (List.pairwise_cons.mp h1).1 x hx
        rcases List.mem_cons.mp ((hmem x).mp (List.mem_cons_of_mem a hx)) with heq | h
        · exact absurd (heq ▸ hax) (lt_irrefl a)
        · exact h
      · intro hx
        have hax : a < x := (List.pairwise_cons.mp h2).1 x hx
        rcases List.mem_cons.mp ((hmem x).mpr (List.mem_cons_of_mem a hx)) with heq | h
        · exact absurd (heq ▸ hax) (lt_irrefl a)
        · exact h

theorem mergeSort_le_sorted (l : List Ngram) :
    (l.mergeSort (fun a b => decide (a ≤ b))).Pairwise (· ≤ ·) := by
  have h := @List.sorted_mergeSort Ngram (fun a b : Ngram => decide (a ≤ b))
    (fun a b c hab hbc => by
      simp only [decide_eq_true_eq] at *
      exact Nat.le_trans hab hbc)
    (fun a b => by
      simp only [Bool.or_eq_true, decide_eq_true_eq]
      exact Nat.le_total a b) l
  exact h.imp (fun hab => by simpa using hab)

/-- The frequency filter commutes with window generation: generating with
an allowed set equals generating unfiltered and then filtering. -/
theorem windows_some_eq_filter (tokens : List Token) (w : Nat) (S : Finset Ngram) :
    Ngrams.windows tokens w (some S)
      = (Ngrams.windows tokens w none).filter (· ∈ S) := by
  apply strictSorted_eq_of_mem
  · exact dedupAdjacent_sorted _ (mergeSort_le_sorted _)
  · exact List.Pairwise.sublist (List.filter_sublist _)
      (dedupAdjacent_sorted _ (mergeSort_le_sorted _))
  · intro x
    rw [Ngrams.windows, Ngrams.windows]
    simp only [mem_dedupAdjacent, List.mem_mergeSort, List.mem_filter, decide_eq_true_eq]

/-- Claim C3: in the Build pipeline, the naive-Bayes classifier is trained
on the *unfiltered* window sets of the labelled playlist paths (the
training fold consumes exactly `windows(tokens, W, None)`), while every
candidate entry stores the *frequent-filtered* window set of the same
tokenization — equal to the unfiltered set filtered by the global
frequent-n-gram set — so training and inference deliberately use different
n-gram sets for one and the same path. -/
theorem claim_C3 (pt : PairTokenizer) (w : Nat) (candidatePaths : List Str)
    (playlist : List (Bool × Str)) :
    trainNaiveBayesClassifier pt w playlist
      = trainBatch (NaiveBayesClassifier.new false)
          (playlist.map (fun e => (e.1, Ngrams.windows (pt.tokenize e.2) w none))) ∧
    (∀ pr ∈ (generateNgrams pt w candidatePaths (playlist.map (·.2))).2,
      pr.2 = Ngrams.windows (pt.tokenize pr.1) w
          (some (countAndFilterFromPaths (candidatePaths ++ playlist.map (·.2)) pt w)) ∧
      pr.2 = (Ngrams.windows (pt.tokenize pr.1) w none).filter
          (· ∈ countAndFilterFromPaths (candidatePaths ++ playlist.map (·.2)) pt w)) := by
  constructor
  · rw [trainNaiveBayesClassifier, trainBatch]
    suffices hgen : ∀ (l : List (Bool × Str)) (nb : NaiveBayesClassifier),
        l.foldl (fun nb e =>
          if e.1 then nb.train_positive (Ngrams.windows (pt.tokenize e.2) w none)
          else nb.train_negative (Ngrams.windows (pt.tokenize e.2) w none)) nb
        = (l.map (fun e => (e.1, Ngrams.windows (pt.tokenize e.2) w none))).foldl
            (fun c e => if e.1 then c.train_positive e.2 else c.train_negative e.2) nb from
      hgen playlist _
    intro l
    induction l with
    | nil => intro nb; rfl
    | cons e rest ih =>
      intro nb
      rw [List.map_cons, List.foldl_cons, List.foldl_cons, ih]
  · intro pr hpr
    rw [generateNgrams] at hpr
    obtain ⟨p, -, rfl⟩ := List.mem_map.mp hpr
    exact ⟨rfl, windows_some_eq_filter _ w _⟩

/-- Witness for claim C3 at a concrete one-candidate, one-label pipeline
over the path `"ab"` with window limit 2. -/
theorem claim_C3_witness :
    ((['a', 'b'],
        Ngrams.windows ((PairTokenizer.new [['a', 'b']]).tokenize ['a', 'b']) 2
          (some (countAndFilterFromPaths ([['a', 'b']] ++ [(true, ['a', 'b'])].map (·.2))
            (PairTokenizer.new [['a', 'b']]) 2)))
      ∈ (generateNgrams (PairTokenizer.new [['a', 'b']]) 2 [['a', 'b']]
          ([(true, ['a', 'b'])].map (·.2))).2) ∧
    Ngrams.windows ((PairTokenizer.new [['a', 'b']]).tokenize ['a', 'b']) 2
        (some (countAndFilterFromPaths ([['a', 'b']] ++ [(true, ['a', 'b'])].map (·.2))
          (PairTokenizer.new [['a', 'b']]) 2))
      = (Ngrams.windows ((PairTokenizer.new [['a', 'b']]).tokenize ['a', 'b']) 2 none).filter
          (· ∈ countAndFilterFromPaths ([['a', 'b']] ++ [(true, ['a', 'b'])].map (·.2))
            (PairTokenizer.new [['a', 'b']]) 2) :=
  ⟨List.mem_cons_self _ _,
    ((claim_C3 (PairTokenizer.new [['a', 'b']]) 2 [['a', 'b']] [(true, ['a', 'b'])]).2 _
      (List.mem_cons_self _ _)).2⟩

end ClassiCine
